import Mathlib

/-!
# Sudoku engine (`src/main.cpp`): shallow embedding and verified properties

The board is the `std::vector<std::vector<int>>` of the source, embedded as a
list of lists of integers.  An access `board[row][col]` outside the vector is
undefined behaviour in the source; the embedding reports it as
`Fault.outOfBounds`.  The recursion of `solveSudoku` is embedded with an
explicit recursion budget; exhausting it is reported as `Fault.outOfFuel`
and is shown never to happen for the budget used.
-/

namespace Sudoku

/-! ## Data model -/

/-- Ways in which a run of the embedded program can fail to produce a value. -/
inductive Fault where
  | outOfBounds
  | outOfFuel
  deriving DecidableEq, Repr

instance instDecidableEqExcept {ε α : Type} [DecidableEq ε] [DecidableEq α] :
    DecidableEq (Except ε α)
  | .ok a, .ok b =>
    if h : a = b then isTrue (by rw [h]) else isFalse (fun h2 => h (Except.ok.inj h2))
  | .error a, .error b =>
    if h : a = b then isTrue (by rw [h]) else isFalse (fun h2 => h (Except.error.inj h2))
  | .ok _, .error _ => isFalse (fun h => Except.noConfusion h)
  | .error _, .ok _ => isFalse (fun h => Except.noConfusion h)

/-- The type `std::vector<std::vector<int>>` of the source. -/
abbrev Board := List (List Int)

/-- Constant `GRID_SIZE` of the source. -/
def GRID_SIZE : Nat := 9

/-- The candidate digits `1..9` produced by `std::iota(.., 1)` on a vector of
length `GRID_SIZE`. -/
def digits : List Int := [1, 2, 3, 4, 5, 6, 7, 8, 9]

/-- Read access `board[row][col]`. -/
def readCell (board : Board) (row col : Nat) : Except Fault Int :=
  match (board[row]?) with
  | none => .error .outOfBounds
  | some cells =>
    match (cells[col]?) with
    | none => .error .outOfBounds
    | some v => .ok v

/-- Write access `board[row][col] = v`. -/
def writeCell (board : Board) (row col : Nat) (v : Int) : Except Fault Board :=
  match (board[row]?) with
  | none => .error .outOfBounds
  | some cells =>
    if col < cells.length then .ok (board.set row (cells.set col v))
    else .error .outOfBounds

/-- A board of nine rows of nine cells, as built on line 199 of the source. -/
def Board.WF (b : Board) : Prop :=
  b.length = 9 ∧ ∀ line ∈ b, line.length = 9

instance (b : Board) : Decidable b.WF := by
  unfold Board.WF; infer_instance

/-- Total view of a cell, used in statements (`0` outside the board). -/
def cellOf (b : Board) (r c : Nat) : Int :=
  (b.getD r []).getD c 0

/-- Total update of a cell, used in statements. -/
def putCell (b : Board) (r c : Nat) (v : Int) : Board :=
  b.set r ((b.getD r []).set c v)

/-- The board `std::vector<std::vector<int>>(9, std::vector<int>(9, 0))`. -/
def emptyBoard : Board := List.replicate 9 (List.replicate 9 0)

/-! ## ConstraintChecker: `isValidMove` (lines 123-141) -/

/-- The loop `for (x = 0; x < GRID_SIZE; ++x)` of `isValidMove` over the
remaining values of `x`; `false` is the early `return false`, `true` means the
loop ran to its end. The `||` reads the column cell only when the row cell
differs from `num`. -/
def scanRowCol (board : Board) (row col : Nat) (num : Int) :
    List Nat → Except Fault Bool
  | [] => .ok true
  | x :: xs =>
    match readCell board row x with
    | .error e => .error e
    | .ok a =>
      if a = num then .ok false
      else
        match readCell board x col with
        | .error e => .error e
        | .ok b => if b = num then .ok false else scanRowCol board row col num xs

/-- The inner loop `for (j = 0; j < 3; ++j)` of the box scan. -/
def scanBoxLine (board : Board) (startRow startCol : Nat) (num : Int) (i : Nat) :
    List Nat → Except Fault Bool
  | [] => .ok true
  | j :: js =>
    match readCell board (startRow + i) (startCol + j) with
    | .error e => .error e
    | .ok a => if a = num then .ok false else scanBoxLine board startRow startCol num i js

/-- The outer loop `for (i = 0; i < 3; ++i)` of the box scan. -/
def scanBox (board : Board) (startRow startCol : Nat) (num : Int) :
    List Nat → Except Fault Bool
  | [] => .ok true
  | i :: is =>
    match scanBoxLine board startRow startCol num i (List.range 3) with
    | .error e => .error e
    | .ok false => .ok false
    | .ok true => scanBox board startRow startCol num is

/-- Function `isValidMove` of the source. -/
def isValidMove (board : Board) (row col : Nat) (num : Int) : Except Fault Bool :=
  match scanRowCol board row col num (List.range GRID_SIZE) with
  | .error e => .error e
  | .ok false => .ok false
  | .ok true =>
    let startRow := row / 3 * 3
    let startCol := col / 3 * 3
    scanBox board startRow startCol num (List.range 3)

/-- The digit `d` occurs in row `r`, in column `c`, or in the 3x3 box with
origin `(r - r % 3, c - c % 3)`. -/
def Occurs (b : Board) (r c : Nat) (d : Int) : Prop :=
  (∃ x, x < 9 ∧ cellOf b r x = d) ∨ (∃ x, x < 9 ∧ cellOf b x c = d) ∨
    (∃ i, i < 3 ∧ ∃ j, j < 3 ∧ cellOf b (r - r % 3 + i) (c - c % 3 + j) = d)

instance (b : Board) (r c : Nat) (d : Int) : Decidable (Occurs b r c d) := by
  unfold Occurs; infer_instance

/-! ## Solver: `solveSudoku` (lines 143-169) -/

/-- Outcome of a call of `solveSudoku`: the returned flag, the board as the
call leaves it, and the number of shuffles drawn from the random source so
far. -/
abbrev SolveResult := Except Fault (Bool × Board × Nat)

/-- The loop `for (int num : numbers)` of `solveSudoku` (lines 159-167) over
the remaining candidates; `next` is the recursive call
`solveSudoku(board, row, col + 1)`. Falling out of the loop is `return false`. -/
def tryCandidates (next : Board → Nat → SolveResult) (row col : Nat) :
    List Int → Board → Nat → SolveResult
  | [], board, k => .ok (false, board, k)
  | num :: rest, board, k =>
    match isValidMove board row col num with
    | .error e => .error e
    | .ok false => tryCandidates next row col rest board k
    | .ok true =>
      match writeCell board row col num with
      | .error e => .error e
      | .ok placed =>
        match next placed k with
        | .error e => .error e
        | .ok (true, solved, k2) => .ok (true, solved, k2)
        | .ok (false, back, k2) =>
          match writeCell back row col 0 with
          | .error e => .error e
          | .ok undone => tryCandidates next row col rest undone k2

/-- Function `solveSudoku` of the source with a recursion budget. The random
source is the stream `shuffle`: `shuffle k` is the vector `numbers` after the
`k`-th call of `std::shuffle`, and the counter of shuffles drawn is threaded
through the calls. -/
def solveSudokuFuel (shuffle : Nat → List Int) :
    Nat → Board → Nat → Nat → Nat → SolveResult
  | 0, _, _, _, _ => .error .outOfFuel
  | fuel + 1, board, row, col, k =>
    if row = GRID_SIZE - 1 ∧ col = GRID_SIZE then .ok (true, board, k)
    else
      let row2 := if col = GRID_SIZE then row + 1 else row
      let col2 := if col = GRID_SIZE then 0 else col
      match readCell board row2 col2 with
      | .error e => .error e
      | .ok v =>
        if v ≠ 0 then solveSudokuFuel shuffle fuel board row2 (col2 + 1) k
        else
          tryCandidates (fun b k2 => solveSudokuFuel shuffle fuel b row2 (col2 + 1) k2)
            row2 col2 (shuffle k) board (k + 1)

/-- Function `solveSudoku` of the source: the recursion is at most
`GRID_SIZE * GRID_SIZE + 1` calls deep (see `solveSudokuFuel_total`). -/
def solveSudoku (shuffle : Nat → List Int) (board : Board) (row col k : Nat) :
    SolveResult :=
  solveSudokuFuel shuffle (GRID_SIZE * GRID_SIZE + 1) board row col k

/-! ## Predicates on boards used in the statements -/

/-- The cells `(r1, c1)` and `(r2, c2)` lie in a common row, column or 3x3
box. -/
def SameUnit (r1 c1 r2 c2 : Nat) : Prop :=
  r1 = r2 ∨ c1 = c2 ∨ (r1 / 3 = r2 / 3 ∧ c1 / 3 = c2 / 3)

instance (r1 c1 r2 c2 : Nat) : Decidable (SameUnit r1 c1 r2 c2) := by
  unfold SameUnit; infer_instance

/-- No non-zero value occurs twice in a row, a column or a 3x3 box. -/
def ConflictFree (b : Board) : Prop :=
  ∀ r1, r1 < 9 → ∀ c1, c1 < 9 → ∀ r2, r2 < 9 → ∀ c2, c2 < 9 →
    SameUnit r1 c1 r2 c2 → cellOf b r1 c1 ≠ 0 → cellOf b r1 c1 = cellOf b r2 c2 →
      r1 = r2 ∧ c1 = c2

set_option synthInstance.maxSize 1000 in
set_option synthInstance.maxHeartbeats 200000 in
instance (b : Board) : Decidable (ConflictFree b) := by
  unfold ConflictFree; infer_instance

/-- Every entry is in `0..9`. -/
def InRange (b : Board) : Prop :=
  ∀ r, r < 9 → ∀ c, c < 9 → 0 ≤ cellOf b r c ∧ cellOf b r c ≤ 9

instance (b : Board) : Decidable (InRange b) := by
  unfold InRange; infer_instance

/-- No cell of the board is zero. -/
def Full (b : Board) : Prop :=
  ∀ r, r < 9 → ∀ c, c < 9 → cellOf b r c ≠ 0

instance (b : Board) : Decidable (Full b) := by
  unfold Full; infer_instance

/-- Row `r` of the board, left to right. -/
def rowOf (b : Board) (r : Nat) : List Int :=
  (List.range 9).map (fun c => cellOf b r c)

/-- Column `c` of the board, top to bottom. -/
def colOf (b : Board) (c : Nat) : List Int :=
  (List.range 9).map (fun r => cellOf b r c)

/-- The cells of the box with origin `(3 * (k / 3), 3 * (k % 3))`, row by row. -/
def boxOf (b : Board) (k : Nat) : List Int :=
  (List.range 9).map (fun t => cellOf b (3 * (k / 3) + t / 3) (3 * (k % 3) + t % 3))

/-- Every row, every column and every 3x3 box is a permutation of `1..9`. -/
def Solved (b : Board) : Prop :=
  ∀ i, i < 9 →
    (rowOf b i).Perm digits ∧ (colOf b i).Perm digits ∧ (boxOf b i).Perm digits

instance (b : Board) : Decidable (Solved b) := by
  unfold Solved; infer_instance

/-- The grid `g` agrees with the board `b` on all non-zero cells of `b`. -/
def Agrees (b g : Board) : Prop :=
  ∀ r, r < 9 → ∀ c, c < 9 → cellOf b r c ≠ 0 → cellOf g r c = cellOf b r c

instance (b g : Board) : Decidable (Agrees b g) := by
  unfold Agrees; infer_instance

/-- Some complete valid grid agrees with the board on its non-zero cells. -/
def Completable (b : Board) : Prop :=
  ∃ g : Board, g.WF ∧ Solved g ∧ Agrees b g

/-- A complete valid grid (the rows are cyclic shifts of the first one). -/
def sampleGrid : Board :=
  [[1, 2, 3, 4, 5, 6, 7, 8, 9],
   [4, 5, 6, 7, 8, 9, 1, 2, 3],
   [7, 8, 9, 1, 2, 3, 4, 5, 6],
   [2, 3, 4, 5, 6, 7, 8, 9, 1],
   [5, 6, 7, 8, 9, 1, 2, 3, 4],
   [8, 9, 1, 2, 3, 4, 5, 6, 7],
   [3, 4, 5, 6, 7, 8, 9, 1, 2],
   [6, 7, 8, 9, 1, 2, 3, 4, 5],
   [9, 1, 2, 3, 4, 5, 6, 7, 8]]

/-- The identity order of candidates, for every draw. -/
def identityShuffle : Nat → List Int := fun _ => digits

/-- What a call `solveSudoku(board, row, col)` on the board `b` guarantees about
its returned flag `res` and the board `b2` it leaves. -/
structure SolvePost (shuffle : Nat → List Int) (b : Board) (row col : Nat)
    (res : Bool) (b2 : Board) : Prop where
  wf : b2.WF
  frame : Agrees b b2
  atomic : res = false → b2 = b
  filled : res = true →
    ∀ r, r < 9 → ∀ c, c < 9 → 9 * row + col ≤ 9 * r + c → cellOf b2 r c ≠ 0
  sound : (∀ k, ∀ d ∈ shuffle k, 1 ≤ d ∧ d ≤ 9) → ConflictFree b → InRange b →
    ConflictFree b2 ∧ InRange b2
  complete : (∀ k, ∀ d ∈ digits, d ∈ shuffle k) → Completable b → res = true

/-- Some digit of `1..9` occurs twice in one row of the board. -/
def HasRowDuplicate (b : Board) : Prop :=
  ∃ r, r < 9 ∧ ∃ c1, c1 < 9 ∧ ∃ c2, c2 < 9 ∧
    c1 ≠ c2 ∧ 1 ≤ cellOf b r c1 ∧ cellOf b r c1 ≤ 9 ∧ cellOf b r c1 = cellOf b r c2

instance (b : Board) : Decidable (HasRowDuplicate b) := by
  unfold HasRowDuplicate; infer_instance

/-- The grid `sampleGrid` with its first row blanked. -/
def samplePuzzle : Board :=
  [[0, 0, 0, 0, 0, 0, 0, 0, 0],
   [4, 5, 6, 7, 8, 9, 1, 2, 3],
   [7, 8, 9, 1, 2, 3, 4, 5, 6],
   [2, 3, 4, 5, 6, 7, 8, 9, 1],
   [5, 6, 7, 8, 9, 1, 2, 3, 4],
   [8, 9, 1, 2, 3, 4, 5, 6, 7],
   [3, 4, 5, 6, 7, 8, 9, 1, 2],
   [6, 7, 8, 9, 1, 2, 3, 4, 5],
   [9, 1, 2, 3, 4, 5, 6, 7, 8]]

/-- A board on which no digit fits the first cell: `1..8` are in its row and
`9` is in its column. -/
def deadEndBoard : Board :=
  [[0, 1, 2, 3, 4, 5, 6, 7, 8],
   [9, 0, 0, 0, 0, 0, 0, 0, 0],
   [0, 0, 0, 0, 0, 0, 0, 0, 0],
   [0, 0, 0, 0, 0, 0, 0, 0, 0],
   [0, 0, 0, 0, 0, 0, 0, 0, 0],
   [0, 0, 0, 0, 0, 0, 0, 0, 0],
   [0, 0, 0, 0, 0, 0, 0, 0, 0],
   [0, 0, 0, 0, 0, 0, 0, 0, 0],
   [0, 0, 0, 0, 0, 0, 0, 0, 0]]

/-- The grid `sampleGrid` with the digit `1` twice in its first row and the
third cell of that row blank. -/
def duplicateBoard : Board :=
  [[1, 1, 0, 4, 5, 6, 7, 8, 9],
   [4, 5, 6, 7, 8, 9, 1, 2, 3],
   [7, 8, 9, 1, 2, 3, 4, 5, 6],
   [2, 3, 4, 5, 6, 7, 8, 9, 1],
   [5, 6, 7, 8, 9, 1, 2, 3, 4],
   [8, 9, 1, 2, 3, 4, 5, 6, 7],
   [3, 4, 5, 6, 7, 8, 9, 1, 2],
   [6, 7, 8, 9, 1, 2, 3, 4, 5],
   [9, 1, 2, 3, 4, 5, 6, 7, 8]]

/-- The board `duplicateBoard` after the solver has put `3` in its blank. -/
def duplicateBoardFilled : Board :=
  [[1, 1, 3, 4, 5, 6, 7, 8, 9],
   [4, 5, 6, 7, 8, 9, 1, 2, 3],
   [7, 8, 9, 1, 2, 3, 4, 5, 6],
   [2, 3, 4, 5, 6, 7, 8, 9, 1],
   [5, 6, 7, 8, 9, 1, 2, 3, 4],
   [8, 9, 1, 2, 3, 4, 5, 6, 7],
   [3, 4, 5, 6, 7, 8, 9, 1, 2],
   [6, 7, 8, 9, 1, 2, 3, 4, 5],
   [9, 1, 2, 3, 4, 5, 6, 7, 8]]

/-! ## Session state and `handleInput` (lines 261-307) -/

/-- Constant `CELL_SIZE` of the source. -/
def CELL_SIZE : Int := 50

/-- Constant `PADDING` of the source. -/
def PADDING : Int := 10

/-- Constant `SCREEN_WIDTH` of the source. -/
def SCREEN_WIDTH : Int := 640

/-- Constant `SCREEN_HEIGHT` of the source. -/
def SCREEN_HEIGHT : Int := 480

/-- Key code `SDLK_0` of SDL2 (the character `'0'`). -/
def SDLK_0 : Int := 48

/-- Key code `SDLK_1` of SDL2. -/
def SDLK_1 : Int := 49

/-- Key code `SDLK_2` of SDL2. -/
def SDLK_2 : Int := 50

/-- Key code `SDLK_3` of SDL2. -/
def SDLK_3 : Int := 51

/-- Key code `SDLK_4` of SDL2. -/
def SDLK_4 : Int := 52

/-- Key code `SDLK_5` of SDL2. -/
def SDLK_5 : Int := 53

/-- Key code `SDLK_6` of SDL2. -/
def SDLK_6 : Int := 54

/-- Key code `SDLK_7` of SDL2. -/
def SDLK_7 : Int := 55

/-- Key code `SDLK_8` of SDL2. -/
def SDLK_8 : Int := 56

/-- Key code `SDLK_9` of SDL2. -/
def SDLK_9 : Int := 57

/-- Key code `SDLK_BACKSPACE` of SDL2. -/
def SDLK_BACKSPACE : Int := 8

/-- Key code `SDLK_RETURN` of SDL2. -/
def SDLK_RETURN : Int := 13

/-- Key code `SDLK_DELETE` of SDL2. -/
def SDLK_DELETE : Int := 127

/-- Key code `SDLK_RIGHT` of SDL2 (scancode 79 with bit 30 set). -/
def SDLK_RIGHT : Int := 1073741903

/-- Key code `SDLK_LEFT` of SDL2. -/
def SDLK_LEFT : Int := 1073741904

/-- Key code `SDLK_DOWN` of SDL2. -/
def SDLK_DOWN : Int := 1073741905

/-- Key code `SDLK_UP` of SDL2. -/
def SDLK_UP : Int := 1073741906

/-- The part of an `SDL_Event` that `handleInput` looks at: `SDL_KEYDOWN` with
its key code, `SDL_MOUSEBUTTONDOWN` with its pixel position, or anything
else. -/
inductive Event where
  | keyDown (sym : Int)
  | mouseButtonDown (x y : Int)
  | other
  deriving DecidableEq, Repr

/-- The variables of `main` that `handleInput` receives by reference: the
player board, the selection, the check-mode flag and its activation time (a
`Uint32`). -/
structure Session where
  board : Board
  selectedRow : Int
  selectedCol : Int
  checkMode : Bool
  checkTime : Nat
  deriving DecidableEq, Repr

/-- Read access `board[row][col]` with `int` indices: a negative index is
outside the vector. -/
def readCellAt (board : Board) (row col : Int) : Except Fault Int :=
  if row < 0 ∨ col < 0 then .error .outOfBounds
  else readCell board row.toNat col.toNat

/-- Write access `board[row][col] = v` with `int` indices. -/
def writeCellAt (board : Board) (row col : Int) (v : Int) : Except Fault Board :=
  if row < 0 ∨ col < 0 then .error .outOfBounds
  else writeCell board row.toNat col.toNat v

/-- Function `handleInput` of the source. `ticks` is the value `SDL_GetTicks()`
returns when the event is handled. The `%` and `/` of C++ truncate towards
zero (`Int.tmod`, `Int.tdiv`). `isValidMove` is only reached after the read of
`initialBoard` at the selection, hence with non-negative indices. The
parameter `solvedBoard` is received and never used, as in the source. -/
def handleInput (e : Event) (initialBoard solvedBoard : Board) (ticks : Nat)
    (s : Session) : Except Fault Session :=
  match e with
  | .keyDown sym =>
    if sym = SDLK_UP then
      .ok { s with selectedRow := (s.selectedRow - 1 + GRID_SIZE).tmod GRID_SIZE }
    else if sym = SDLK_DOWN then
      .ok { s with selectedRow := (s.selectedRow + 1).tmod GRID_SIZE }
    else if sym = SDLK_LEFT then
      .ok { s with selectedCol := (s.selectedCol - 1 + GRID_SIZE).tmod GRID_SIZE }
    else if sym = SDLK_RIGHT then
      .ok { s with selectedCol := (s.selectedCol + 1).tmod GRID_SIZE }
    else if sym = SDLK_1 ∨ sym = SDLK_2 ∨ sym = SDLK_3 ∨ sym = SDLK_4 ∨ sym = SDLK_5 ∨
        sym = SDLK_6 ∨ sym = SDLK_7 ∨ sym = SDLK_8 ∨ sym = SDLK_9 then
      let num := sym - SDLK_0
      match readCellAt initialBoard s.selectedRow s.selectedCol with
      | .error f => .error f
      | .ok given =>
        if given = 0 then
          match isValidMove s.board s.selectedRow.toNat s.selectedCol.toNat num with
          | .error f => .error f
          | .ok false => .ok s
          | .ok true =>
            match writeCellAt s.board s.selectedRow s.selectedCol num with
            | .error f => .error f
            | .ok b2 => .ok { s with board := b2 }
        else .ok s
    else if sym = SDLK_BACKSPACE ∨ sym = SDLK_DELETE then
      match readCellAt initialBoard s.selectedRow s.selectedCol with
      | .error f => .error f
      | .ok given =>
        if given = 0 then
          match writeCellAt s.board s.selectedRow s.selectedCol 0 with
          | .error f => .error f
          | .ok b2 => .ok { s with board := b2 }
        else .ok s
    else if sym = SDLK_RETURN then
      .ok { s with checkMode := true, checkTime := ticks % 2 ^ 32 }
    else .ok s
  | .mouseButtonDown mouseX mouseY =>
    if mouseX ≥ PADDING ∧ mouseX ≤ PADDING + GRID_SIZE * CELL_SIZE ∧
        mouseY ≥ PADDING ∧ mouseY ≤ PADDING + GRID_SIZE * CELL_SIZE then
      .ok { s with
        selectedCol := (mouseX - PADDING).tdiv CELL_SIZE
        selectedRow := (mouseY - PADDING).tdiv CELL_SIZE }
    else if mouseX ≥ SCREEN_WIDTH - 100 ∧ mouseX ≤ SCREEN_WIDTH - 20 ∧
        mouseY ≥ SCREEN_HEIGHT - 50 ∧ mouseY ≤ SCREEN_HEIGHT - 20 then
      .ok { s with checkMode := true, checkTime := ticks % 2 ^ 32 }
    else .ok s
  | .other => .ok s

/-- The calls of `handleInput` that the event loop of `main` (lines 334-340)
makes for a sequence of events, each with the clock reading at its handling. -/
def runEvents (initialBoard solvedBoard : Board) :
    List (Event × Nat) → Session → Except Fault Session
  | [], s => .ok s
  | (e, ticks) :: rest, s =>
    match handleInput e initialBoard solvedBoard ticks s with
    | .error f => .error f
    | .ok s2 => runEvents initialBoard solvedBoard rest s2

/-- The selection is a cell of the board. -/
def SelectionInRange (s : Session) : Prop :=
  0 ≤ s.selectedRow ∧ s.selectedRow < 9 ∧ 0 ≤ s.selectedCol ∧ s.selectedCol < 9

instance (s : Session) : Decidable (SelectionInRange s) := by
  unfold SelectionInRange; infer_instance

/-- The event is a key press. -/
def Event.isKey : Event → Bool
  | .keyDown _ => true
  | _ => false

/-- The session as `main` starts it (lines 319-328) on the puzzle `puzzle`. -/
def initialSession (puzzle : Board) : Session :=
  { board := puzzle, selectedRow := 0, selectedCol := 0, checkMode := false, checkTime := 0 }

/-! ## Generator: `fillDiagonal`, `removeCells`, `generateSudoku` (lines 171-206) -/

/-- The coordinates `(row, col)` visited by the nested loops `row < 3`, `col < 3`. -/
def boxCells : List (Nat × Nat) :=
  [(0, 0), (0, 1), (0, 2), (1, 0), (1, 1), (1, 2), (2, 0), (2, 1), (2, 2)]

/-- The two inner loops of `fillDiagonal` (lines 177-181) for one value of `i`,
over the remaining `(row, col)`: `board[i + row][i + col] = numbers[row * 3 + col]`. -/
def fillBox (numbers : List Int) (i : Nat) : List (Nat × Nat) → Board → Except Fault Board
  | [], board => .ok board
  | (row, col) :: rest, board =>
    match (numbers[row * 3 + col]?) with
    | none => .error .outOfBounds
    | some v =>
      match writeCell board (i + row) (i + col) v with
      | .error f => .error f
      | .ok b2 => fillBox numbers i rest b2

/-- Function `fillDiagonal` of the source: the outer loop takes `i = 0, 3, 6`
and draws a fresh shuffle of `1..9` for each (draws `0`, `1`, `2` of the
stream). -/
def fillDiagonal (shuffle : Nat → List Int) (board : Board) : Except Fault Board :=
  match fillBox (shuffle 0) 0 boxCells board with
  | .error f => .error f
  | .ok b1 =>
    match fillBox (shuffle 1) 3 boxCells b1 with
    | .error f => .error f
    | .ok b2 => fillBox (shuffle 2) 6 boxCells b2

/-- The vector `cells` of `removeCells` before the shuffle: all coordinates in
row-major order (lines 186-191). -/
def allCells : List (Nat × Nat) :=
  (List.range GRID_SIZE).flatMap (fun row => (List.range GRID_SIZE).map (fun col => (row, col)))

/-- The loop of `removeCells` (lines 193-195) over the first `cellsToRemove`
entries of the shuffled vector `cells`. -/
def removeLoop : List (Nat × Nat) → Board → Except Fault Board
  | [], board => .ok board
  | (row, col) :: rest, board =>
    match writeCell board row col 0 with
    | .error f => .error f
    | .ok b2 => removeLoop rest b2

/-- Function `removeCells` of the source; `cells` is the vector after
`std::shuffle`, a permutation of `allCells`. Reading `cells[i]` past the end of
the vector is a fault. -/
def removeCells (cells : List (Nat × Nat)) (board : Board) (cellsToRemove : Nat) :
    Except Fault Board :=
  if cellsToRemove ≤ cells.length then removeLoop (cells.take cellsToRemove) board
  else .error .outOfBounds

/-- Function `generateSudoku` of the source. The value returned by
`solveSudoku` is discarded, as in the source (line 202). -/
def generateSudoku (shuffle : Nat → List Int) (cells : List (Nat × Nat)) :
    Except Fault Board :=
  match fillDiagonal shuffle emptyBoard with
  | .error f => .error f
  | .ok seeded =>
    match solveSudoku shuffle seeded 0 0 3 with
    | .error f => .error f
    | .ok (_, completed, _) => removeCells cells completed (GRID_SIZE * GRID_SIZE - 30)

/-- Number of non-zero cells of the board. -/
def clueCount (b : Board) : Nat :=
  (allCells.filter (fun p => decide (cellOf b p.1 p.2 ≠ 0))).length


/-! ## Check mode: `isBoardComplete`, the expiry step of `main`, the highlights of `drawGrid` -/

/-- Function `isBoardComplete` of the source: `std::find(row.begin(), row.end(), 0)`
finds a zero in some row. -/
def isBoardComplete : Board → Bool
  | [] => true
  | row :: rest => if 0 ∈ row then false else isBoardComplete rest

/-- The difference `a - b` of two `Uint32` values. -/
def sub32 (a b : Nat) : Nat :=
  (a % 2 ^ 32 + 2 ^ 32 - b % 2 ^ 32) % 2 ^ 32

/-- Lines 353-362 of `main`: the check-mode expiry at the end of a loop
iteration. `currentTime` is the value of `SDL_GetTicks()` there; the result is
the session and the flag `quit`. The call `drawCompletionScreen` only draws. -/
def checkExpiry (currentTime : Nat) (s : Session) (quit : Bool) : Session × Bool :=
  if s.checkMode then
    if sub32 currentTime s.checkTime ≥ 2000 then
      if isBoardComplete s.board then ({ s with checkMode := false }, true)
      else ({ s with checkMode := false }, quit)
    else (s, quit)
  else (s, quit)

/-- The two fill colours of the check-mode highlight of `drawGrid`: red
`(255, 0, 0)` for `incorrect`, green `(0, 255, 0)` for `correct`. -/
inductive Highlight where
  | incorrect
  | correct
  deriving DecidableEq, Repr

/-- The first test of the inner loop of `drawGrid` (line 84):
`board[row][col] != 0 && board[row][col] != solvedBoard[row][col]`; the `&&`
reads `solvedBoard` only when the player cell is non-zero. -/
def testIncorrect (board solvedBoard : Board) (row col : Nat) : Except Fault Bool :=
  match readCell board row col with
  | .error f => .error f
  | .ok v =>
    if v ≠ 0 then
      match readCell solvedBoard row col with
      | .error f => .error f
      | .ok w => .ok (decide (v ≠ w))
    else .ok false

/-- The second test of the inner loop of `drawGrid` (line 88):
`board[row][col] == solvedBoard[row][col] && board[row][col] != 0`. -/
def testCorrect (board solvedBoard : Board) (row col : Nat) : Except Fault Bool :=
  match readCell board row col with
  | .error f => .error f
  | .ok v =>
    match readCell solvedBoard row col with
    | .error f => .error f
    | .ok w => if v = w then .ok (decide (v ≠ 0)) else .ok false

/-- The body of the inner loop of `drawGrid` (lines 84-92) for one cell: the
colour of the rectangle it fills, if any. -/
def highlightCell (board solvedBoard : Board) (row col : Nat) :
    Except Fault (Option Highlight) :=
  match testIncorrect board solvedBoard row col with
  | .error f => .error f
  | .ok true => .ok (some .incorrect)
  | .ok false =>
    match testCorrect board solvedBoard row col with
    | .error f => .error f
    | .ok true => .ok (some .correct)
    | .ok false => .ok none

/-- Function `isCorrect` of the source. -/
def isCorrect (board solvedBoard : Board) (row col : Nat) : Except Fault Bool :=
  match readCell board row col with
  | .error f => .error f
  | .ok v =>
    match readCell solvedBoard row col with
    | .error f => .error f
    | .ok w => .ok (decide (v = w))

/-- The check-mode part of `drawGrid` (lines 80-95) over the remaining cells:
the list of highlighted cells with their colour, in drawing order. -/
def highlightLoop (board solvedBoard : Board) :
    List (Nat × Nat) → Except Fault (List (Nat × Nat × Highlight))
  | [] => .ok []
  | (row, col) :: rest =>
    match highlightCell board solvedBoard row col with
    | .error f => .error f
    | .ok h =>
      match highlightLoop board solvedBoard rest with
      | .error f => .error f
      | .ok hs =>
        match h with
        | none => .ok hs
        | some colour => .ok ((row, col, colour) :: hs)

/-- A session on the full board `duplicateBoardFilled` with check mode requested
shortly before the 32-bit clock wraps around. -/
def checkingSession : Session :=
  { board := duplicateBoardFilled, selectedRow := 0, selectedCol := 0, checkMode := true,
    checkTime := 4294967000 }

/-- No digit of `1..9` occurs twice in a row, a column or a 3x3 box. -/
def DigitConflictFree (b : Board) : Prop :=
  ∀ r1, r1 < 9 → ∀ c1, c1 < 9 → ∀ r2, r2 < 9 → ∀ c2, c2 < 9 →
    SameUnit r1 c1 r2 c2 → 1 ≤ cellOf b r1 c1 ∧ cellOf b r1 c1 ≤ 9 →
      cellOf b r1 c1 = cellOf b r2 c2 → r1 = r2 ∧ c1 = c2

set_option synthInstance.maxSize 1000 in
set_option synthInstance.maxHeartbeats 200000 in
instance (b : Board) : Decidable (DigitConflictFree b) := by
  unfold DigitConflictFree; infer_instance

/-- The key presses that enter `1..9` along the first row, moving right after
each digit. -/
def fillFirstRow : List (Event × Nat) :=
  [(.keyDown SDLK_1, 0), (.keyDown SDLK_RIGHT, 1), (.keyDown SDLK_2, 2),
   (.keyDown SDLK_RIGHT, 3), (.keyDown SDLK_3, 4), (.keyDown SDLK_RIGHT, 5),
   (.keyDown SDLK_4, 6), (.keyDown SDLK_RIGHT, 7), (.keyDown SDLK_5, 8),
   (.keyDown SDLK_RIGHT, 9), (.keyDown SDLK_6, 10), (.keyDown SDLK_RIGHT, 11),
   (.keyDown SDLK_7, 12), (.keyDown SDLK_RIGHT, 13), (.keyDown SDLK_8, 14),
   (.keyDown SDLK_RIGHT, 15), (.keyDown SDLK_9, 16)]

/-- The highlights `drawGrid` draws: none unless `checkMode` holds. -/
def checkHighlights (checkMode : Bool) (board solvedBoard : Board) :
    Except Fault (List (Nat × Nat × Highlight)) :=
  if checkMode then highlightLoop board solvedBoard allCells else .ok []

/-! ## Basic facts on cells -/

theorem readCell_of_WF {b : Board} (hb : b.WF) {r c : Nat} (hr : r < 9) (hc : c < 9) :
    readCell b r c = .ok (cellOf b r c) := by
  obtain ⟨hlen, hrows⟩ := hb
  have h1 : r < b.length := by omega
  have h2 : (b[r]).length = 9 := hrows _ (List.getElem_mem _)
  have h3 : c < (b[r]).length := by omega
  simp [readCell, cellOf, List.getD_eq_getElem?_getD, List.getElem?_eq_getElem h1,
    List.getElem?_eq_getElem h3]

theorem writeCell_of_WF {b : Board} (hb : b.WF) {r c : Nat} (hr : r < 9) (hc : c < 9)
    (v : Int) : writeCell b r c v = .ok (putCell b r c v) := by
  obtain ⟨hlen, hrows⟩ := hb
  have h1 : r < b.length := by omega
  have h2 : (b[r]).length = 9 := hrows _ (List.getElem_mem _)
  simp [writeCell, putCell, List.getD_eq_getElem?_getD, List.getElem?_eq_getElem h1, h2, hc]

theorem putCell_WF {b : Board} (hb : b.WF) (r c : Nat) (v : Int) : (putCell b r c v).WF := by
  obtain ⟨hlen, hrows⟩ := hb
  by_cases hr : r < b.length
  · refine ⟨by simp [putCell, hlen], ?_⟩
    intro cells hcells
    rcases List.mem_or_eq_of_mem_set hcells with h | h
    · exact hrows _ h
    · subst h
      rw [List.length_set]
      simp only [List.getD_eq_getElem?_getD, List.getElem?_eq_getElem hr, Option.getD_some]
      exact hrows _ (List.getElem_mem _)
  · have : putCell b r c v = b := by
      simp only [putCell]
      exact List.set_eq_of_length_le (by omega)
    rw [this]
    exact ⟨hlen, hrows⟩

theorem cellOf_putCell {b : Board} (hb : b.WF) {r c : Nat} (hr : r < 9) (hc : c < 9)
    (v : Int) (r2 c2 : Nat) :
    cellOf (putCell b r c v) r2 c2 = if r2 = r ∧ c2 = c then v else cellOf b r2 c2 := by
  obtain ⟨hlen, hrows⟩ := hb
  have h1 : r < b.length := by omega
  have h2 : (b[r]).length = 9 := hrows _ (List.getElem_mem _)
  have h3 : c < (b[r]).length := by omega
  simp only [cellOf, putCell, List.getD_eq_getElem?_getD, List.getElem?_set,
    List.getElem?_eq_getElem h1, Option.getD_some]
  by_cases e1 : r = r2
  · subst e1
    simp only [h1, if_true, Option.getD_some, List.getElem?_set, true_and]
    by_cases e2 : c = c2
    · subst e2
      simp [h3]
    · have e3 : ¬ c2 = c := fun h => e2 h.symm
      simp [e2, e3, List.getElem?_eq_getElem h1]
  · have e3 : ¬ r2 = r := fun h => e1 h.symm
    simp [e1, e3]

theorem cellOf_putCell_same {b : Board} (hb : b.WF) {r c : Nat} (hr : r < 9) (hc : c < 9)
    (v : Int) : cellOf (putCell b r c v) r c = v := by
  rw [cellOf_putCell hb hr hc]; simp

theorem Board.ext_of_WF {b1 b2 : Board} (h1 : b1.WF) (h2 : b2.WF)
    (h : ∀ r c, r < 9 → c < 9 → cellOf b1 r c = cellOf b2 r c) : b1 = b2 := by
  obtain ⟨l1, r1⟩ := h1
  obtain ⟨l2, r2⟩ := h2
  apply List.ext_getElem (by omega)
  intro r hr1 hr2
  have e1 : (b1[r]).length = 9 := r1 _ (List.getElem_mem _)
  have e2 : (b2[r]).length = 9 := r2 _ (List.getElem_mem _)
  apply List.ext_getElem (by omega)
  intro c hc1 hc2
  have := h r c (by omega) (by omega)
  simpa [cellOf, List.getD_eq_getElem?_getD, List.getElem?_eq_getElem hr1,
    List.getElem?_eq_getElem hr2, List.getElem?_eq_getElem hc1,
    List.getElem?_eq_getElem hc2] using this

theorem putCell_putCell_restore {b : Board} (hb : b.WF) {r c : Nat} (hr : r < 9) (hc : c < 9)
    (v : Int) (h0 : cellOf b r c = 0) : putCell (putCell b r c v) r c 0 = b := by
  have hw1 := putCell_WF hb r c v
  apply Board.ext_of_WF (putCell_WF hw1 r c 0) hb
  intro r2 c2 _ _
  rw [cellOf_putCell hw1 hr hc, cellOf_putCell hb hr hc]
  by_cases e : r2 = r ∧ c2 = c
  · obtain ⟨e1, e2⟩ := e
    subst e1; subst e2
    simp [h0]
  · simp [e]

/-! ## Meaning of `isValidMove` -/

theorem scanRowCol_eq {b : Board} (hb : b.WF) {r c : Nat} (hr : r < 9) (hc : c < 9)
    (d : Int) (xs : List Nat) (hxs : ∀ x ∈ xs, x < 9) :
    scanRowCol b r c d xs
      = .ok (decide (∀ x ∈ xs, cellOf b r x ≠ d ∧ cellOf b x c ≠ d)) := by
  induction xs with
  | nil => simp [scanRowCol]
  | cons x xs ih =>
    have hx : x < 9 := hxs x (List.mem_cons_self _ _)
    have ih2 := ih (fun y hy => hxs y (List.mem_cons_of_mem _ hy))
    simp only [scanRowCol, readCell_of_WF hb hr hx, readCell_of_WF hb hx hc, ih2]
    by_cases e1 : cellOf b r x = d
    · simp [e1]
    · by_cases e2 : cellOf b x c = d
      · simp [e1, e2]
      · simp [e1, e2]

theorem scanBoxLine_eq {b : Board} (hb : b.WF) {sr sc i : Nat} (hr : sr + i < 9)
    (d : Int) (js : List Nat) (hjs : ∀ j ∈ js, sc + j < 9) :
    scanBoxLine b sr sc d i js = .ok (decide (∀ j ∈ js, cellOf b (sr + i) (sc + j) ≠ d)) := by
  induction js with
  | nil => simp [scanBoxLine]
  | cons j js ih =>
    have hj : sc + j < 9 := hjs j (List.mem_cons_self _ _)
    have ih2 := ih (fun y hy => hjs y (List.mem_cons_of_mem _ hy))
    simp only [scanBoxLine, readCell_of_WF hb hr hj, ih2]
    by_cases e1 : cellOf b (sr + i) (sc + j) = d
    · simp [e1]
    · simp [e1]

theorem scanBox_eq {b : Board} (hb : b.WF) {sr sc : Nat} (hsc : sc + 2 < 9)
    (d : Int) (is : List Nat) (his : ∀ i ∈ is, sr + i < 9) :
    scanBox b sr sc d is
      = .ok (decide (∀ i ∈ is, ∀ j ∈ List.range 3, cellOf b (sr + i) (sc + j) ≠ d)) := by
  induction is with
  | nil => simp [scanBox]
  | cons i is ih =>
    have hi : sr + i < 9 := his i (List.mem_cons_self _ _)
    have ih2 := ih (fun y hy => his y (List.mem_cons_of_mem _ hy))
    have hl := @scanBoxLine_eq b hb sr sc i hi d (List.range 3)
      (fun j hj => by have := List.mem_range.mp hj; omega)
    simp only [scanBox, hl, ih2]
    simp only [List.forall_mem_cons, Bool.decide_and]
    generalize decide (∀ j ∈ List.range 3, cellOf b (sr + i) (sc + j) ≠ d) = t
    cases t <;> rfl

/-- On a 9x9 board and an in-range cell `isValidMove` never faults and answers
exactly whether the digit does not occur in the row, the column or the box. -/
theorem isValidMove_eq {b : Board} (hb : b.WF) {r c : Nat} (hr : r < 9) (hc : c < 9)
    (d : Int) : isValidMove b r c d = .ok (decide (¬ Occurs b r c d)) := by
  have h1 := scanRowCol_eq hb hr hc d (List.range GRID_SIZE)
    (fun x hx => by simpa [GRID_SIZE] using hx)
  have e3r : r / 3 * 3 = r - r % 3 := by omega
  have e3c : c / 3 * 3 = c - c % 3 := by omega
  have h2 := @scanBox_eq b hb (r / 3 * 3) (c / 3 * 3) (by omega) d (List.range 3)
    (fun i hi => by have := List.mem_range.mp hi; omega)
  simp only [isValidMove, h1, h2]
  have key : (¬ Occurs b r c d) ↔
      ((∀ x ∈ List.range GRID_SIZE, cellOf b r x ≠ d ∧ cellOf b x c ≠ d) ∧
        (∀ i ∈ List.range 3, ∀ j ∈ List.range 3,
          cellOf b (r / 3 * 3 + i) (c / 3 * 3 + j) ≠ d)) := by
    simp only [GRID_SIZE, List.mem_range, Occurs, e3r, e3c]
    constructor
    · intro h
      refine ⟨fun x hx => ⟨fun e => h (Or.inl ⟨x, hx, e⟩),
        fun e => h (Or.inr (Or.inl ⟨x, hx, e⟩))⟩, ?_⟩
      intro i hi j hj e
      exact h (Or.inr (Or.inr ⟨i, hi, j, hj, e⟩))
    · rintro ⟨p1, p2⟩ hocc
      rcases hocc with ⟨x, hx, e⟩ | ⟨x, hx, e⟩ | ⟨i, hi, j, hj, e⟩
      · exact (p1 x hx).1 e
      · exact (p1 x hx).2 e
      · exact p2 i hi j hj e
  rw [decide_eq_decide.mpr key, Bool.decide_and]
  generalize decide (∀ x ∈ List.range GRID_SIZE, cellOf b r x ≠ d ∧ cellOf b x c ≠ d) = t
  cases t <;> rfl


/-! ## Facts on the board predicates -/

theorem readCell_oob {b : Board} (hb : b.WF) {r c : Nat} (h : 9 ≤ r ∨ 9 ≤ c) :
    readCell b r c = .error .outOfBounds := by
  obtain ⟨hlen, hrows⟩ := hb
  by_cases hr : r < b.length
  · have h2 : (b[r]).length = 9 := hrows _ (List.getElem_mem _)
    have hc : 9 ≤ c := by omega
    have h3 : (b[r])[c]? = none := List.getElem?_eq_none (by omega)
    simp [readCell, List.getElem?_eq_getElem hr, h3]
  · have h3 : b[r]? = none := List.getElem?_eq_none (by omega)
    simp [readCell, h3]

theorem SameUnit.symm {r1 c1 r2 c2 : Nat} (h : SameUnit r1 c1 r2 c2) :
    SameUnit r2 c2 r1 c1 := by
  rcases h with h | h | ⟨h1, h2⟩
  · exact Or.inl h.symm
  · exact Or.inr (Or.inl h.symm)
  · exact Or.inr (Or.inr ⟨h1.symm, h2.symm⟩)

theorem occurs_iff {b : Board} {r c : Nat} (hr : r < 9) (hc : c < 9) (d : Int) :
    Occurs b r c d ↔
      ∃ r2, r2 < 9 ∧ ∃ c2, c2 < 9 ∧ SameUnit r c r2 c2 ∧ cellOf b r2 c2 = d := by
  constructor
  · rintro (⟨x, hx, e⟩ | ⟨x, hx, e⟩ | ⟨i, hi, j, hj, e⟩)
    · exact ⟨r, hr, x, hx, Or.inl rfl, e⟩
    · exact ⟨x, hx, c, hc, Or.inr (Or.inl rfl), e⟩
    · refine ⟨r - r % 3 + i, by omega, c - c % 3 + j, by omega, Or.inr (Or.inr ⟨?_, ?_⟩), e⟩
      · omega
      · omega
  · rintro ⟨r2, hr2, c2, hc2, hu, e⟩
    rcases hu with h | h | ⟨h1, h2⟩
    · subst h; exact Or.inl ⟨c2, hc2, e⟩
    · subst h; exact Or.inr (Or.inl ⟨r2, hr2, e⟩)
    · refine Or.inr (Or.inr ⟨r2 % 3, by omega, c2 % 3, by omega, ?_⟩)
      have e1 : r - r % 3 + r2 % 3 = r2 := by omega
      have e2 : c - c % 3 + c2 % 3 = c2 := by omega
      rw [e1, e2]; exact e

theorem conflictFree_putCell {b : Board} (hb : b.WF) (hcf : ConflictFree b) {r c : Nat}
    (hr : r < 9) (hc : c < 9) {d : Int} (hocc : ¬ Occurs b r c d) :
    ConflictFree (putCell b r c d) := by
  intro r1 h1 c1 hc1 r2 h2 c2 hc2 hu hne heq
  rw [cellOf_putCell hb hr hc] at hne heq
  rw [cellOf_putCell hb hr hc] at heq
  by_cases e1 : r1 = r ∧ c1 = c
  · by_cases e2 : r2 = r ∧ c2 = c
    · exact ⟨e1.1.trans e2.1.symm, e1.2.trans e2.2.symm⟩
    · exfalso
      rw [if_pos e1, if_neg e2] at heq
      obtain ⟨e1r, e1c⟩ := e1
      subst e1r; subst e1c
      exact hocc ((occurs_iff hr hc d).mpr ⟨r2, h2, c2, hc2, hu, heq.symm⟩)
  · by_cases e2 : r2 = r ∧ c2 = c
    · exfalso
      rw [if_neg e1, if_pos e2] at heq
      obtain ⟨e2r, e2c⟩ := e2
      subst e2r; subst e2c
      exact hocc ((occurs_iff hr hc d).mpr ⟨r1, h1, c1, hc1, hu.symm, heq⟩)
    · rw [if_neg e1] at hne heq
      rw [if_neg e2] at heq
      exact hcf r1 h1 c1 hc1 r2 h2 c2 hc2 hu hne heq

theorem inRange_putCell {b : Board} (hb : b.WF) (hin : InRange b) {r c : Nat}
    (hr : r < 9) (hc : c < 9) {d : Int} (hd : 1 ≤ d ∧ d ≤ 9) :
    InRange (putCell b r c d) := by
  intro r1 h1 c1 hc1
  rw [cellOf_putCell hb hr hc]
  by_cases e : r1 = r ∧ c1 = c
  · rw [if_pos e]; omega
  · rw [if_neg e]; exact hin r1 h1 c1 hc1

theorem agrees_putCell {b g : Board} (hb : b.WF) (hag : Agrees b g) {r c : Nat}
    (hr : r < 9) (hc : c < 9) : Agrees (putCell b r c (cellOf g r c)) g := by
  intro r1 h1 c1 hc1 hne
  rw [cellOf_putCell hb hr hc] at hne ⊢
  by_cases e : r1 = r ∧ c1 = c
  · rw [if_pos e]; rw [e.1, e.2]
  · rw [if_neg e] at hne ⊢; exact hag r1 h1 c1 hc1 hne

theorem mem_digits_iff (d : Int) : d ∈ digits ↔ 1 ≤ d ∧ d ≤ 9 := by
  simp only [digits, List.mem_cons, List.mem_singleton, List.not_mem_nil, or_false]
  omega


theorem digits_nodup : digits.Nodup := by decide

theorem perm_digits_of_inj {f : Nat → Int}
    (hinj : ∀ x, x < 9 → ∀ y, y < 9 → f x = f y → x = y)
    (hrange : ∀ x, x < 9 → 1 ≤ f x ∧ f x ≤ 9) :
    ((List.range 9).map f).Perm digits := by
  have hnd : ((List.range 9).map f).Nodup :=
    List.Nodup.map_on
      (fun x hx y hy e => hinj x (List.mem_range.mp hx) y (List.mem_range.mp hy) e)
      (List.nodup_range 9)
  have hsub : (List.range 9).map f ⊆ digits := by
    intro v hv
    obtain ⟨x, hx, rfl⟩ := List.mem_map.mp hv
    exact (mem_digits_iff _).mpr (hrange x (List.mem_range.mp hx))
  exact (List.subperm_of_subset hnd hsub).perm_of_length_le (by simp [digits])

theorem inj_of_perm_digits {f : Nat → Int} (h : ((List.range 9).map f).Perm digits) :
    (∀ x, x < 9 → ∀ y, y < 9 → f x = f y → x = y) ∧ (∀ x, x < 9 → 1 ≤ f x ∧ f x ≤ 9) := by
  have hnd : ((List.range 9).map f).Nodup := h.nodup_iff.mpr digits_nodup
  refine ⟨fun x hx y hy e =>
    List.inj_on_of_nodup_map hnd (List.mem_range.mpr hx) (List.mem_range.mpr hy) e, ?_⟩
  intro x hx
  exact (mem_digits_iff _).mp
    (h.mem_iff.mp (List.mem_map.mpr ⟨x, List.mem_range.mpr hx, rfl⟩))

/-- A full conflict-free board with entries in `0..9` is a valid grid. -/
theorem solved_of_conflictFree {g : Board} (hcf : ConflictFree g) (hin : InRange g)
    (hfull : Full g) : Solved g := by
  have hrange : ∀ r, r < 9 → ∀ c, c < 9 → 1 ≤ cellOf g r c ∧ cellOf g r c ≤ 9 := by
    intro r hr c hc
    have h1 := hin r hr c hc
    have h2 := hfull r hr c hc
    omega
  intro i hi
  refine ⟨?_, ?_, ?_⟩
  · apply perm_digits_of_inj
    · intro x hx y hy e
      exact (hcf i hi x hx i hi y hy (Or.inl rfl) (hfull i hi x hx) e).2
    · intro x hx; exact hrange i hi x hx
  · apply perm_digits_of_inj
    · intro x hx y hy e
      exact (hcf x hx i hi y hy i hi (Or.inr (Or.inl rfl)) (hfull x hx i hi) e).1
    · intro x hx; exact hrange x hx i hi
  · apply perm_digits_of_inj
    · intro x hx y hy e
      have h := hcf (3 * (i / 3) + x / 3) (by omega) (3 * (i % 3) + x % 3) (by omega)
        (3 * (i / 3) + y / 3) (by omega) (3 * (i % 3) + y % 3) (by omega)
        (Or.inr (Or.inr ⟨by omega, by omega⟩)) (hfull _ (by omega) _ (by omega)) e
      omega
    · intro x hx; exact hrange _ (by omega) _ (by omega)

/-- A valid grid is full, conflict-free and has its entries in `1..9`. -/
theorem conflictFree_of_solved {g : Board} (h : Solved g) :
    ConflictFree g ∧ ∀ r, r < 9 → ∀ c, c < 9 → 1 ≤ cellOf g r c ∧ cellOf g r c ≤ 9 := by
  constructor
  · intro r1 h1 c1 hc1 r2 h2 c2 hc2 hu _ heq
    rcases hu with hu | hu | ⟨hu1, hu2⟩
    · subst hu
      exact ⟨rfl, (inj_of_perm_digits (h r1 h1).1).1 c1 hc1 c2 hc2 heq⟩
    · subst hu
      exact ⟨(inj_of_perm_digits (h c1 hc1).2.1).1 r1 h1 r2 h2 heq, rfl⟩
    · have hk : 3 * (r1 / 3) + c1 / 3 < 9 := by omega
      have hinj := (inj_of_perm_digits (h _ hk).2.2).1
        (3 * (r1 % 3) + c1 % 3) (by omega) (3 * (r2 % 3) + c2 % 3) (by omega)
      have e1 : 3 * ((3 * (r1 / 3) + c1 / 3) / 3) + (3 * (r1 % 3) + c1 % 3) / 3 = r1 := by omega
      have e2 : 3 * ((3 * (r1 / 3) + c1 / 3) % 3) + (3 * (r1 % 3) + c1 % 3) % 3 = c1 := by omega
      have e3 : 3 * ((3 * (r1 / 3) + c1 / 3) / 3) + (3 * (r2 % 3) + c2 % 3) / 3 = r2 := by omega
      have e4 : 3 * ((3 * (r1 / 3) + c1 / 3) % 3) + (3 * (r2 % 3) + c2 % 3) % 3 = c2 := by omega
      simp only [e1, e2, e3, e4] at hinj
      have := hinj heq
      omega
  · intro r hr c hc
    exact (inj_of_perm_digits (h r hr).1).2 c hc

theorem full_of_solved {g : Board} (h : Solved g) : Full g := by
  intro r hr c hc
  have := (conflictFree_of_solved h).2 r hr c hc
  omega


/-! ## The solver: one lemma for the candidate loop, one for the recursion -/

theorem ne_zero_of_not_occurs {b : Board} {r c : Nat} (hc : c < 9) {d : Int}
    (h0 : cellOf b r c = 0) (hocc : ¬ Occurs b r c d) : d ≠ 0 := by
  intro e
  exact hocc (Or.inl ⟨c, hc, by rw [h0, e]⟩)

theorem completion_ne_of_occurs {b g : Board} (hsol : Solved g) (hag : Agrees b g)
    {r c : Nat} (hr : r < 9) (hc : c < 9) (h0 : cellOf b r c = 0) {d : Int}
    (hocc : Occurs b r c d) : cellOf g r c ≠ d := by
  intro e
  obtain ⟨r2, h2, c2, hc2, hu, e2⟩ := (occurs_iff hr hc d).mp hocc
  obtain ⟨hcf, hrange⟩ := conflictFree_of_solved hsol
  have hd : d ≠ 0 := by have := hrange r hr c hc; omega
  have e3 : cellOf g r2 c2 = d := by
    rw [hag r2 h2 c2 hc2 (by rw [e2]; exact hd)]; exact e2
  have := hcf r hr c hc r2 h2 c2 hc2 hu (by rw [e]; exact hd) (by rw [e, e3])
  obtain ⟨e4, e5⟩ := this
  subst e4; subst e5
  rw [h0] at e2
  exact hd e2.symm

theorem tryCandidates_post (shuffle : Nat → List Int) (next : Board → Nat → SolveResult)
    {row col : Nat} (hr : row < 9) (hc : col < 9)
    (hnext : ∀ b1 k1, b1.WF →
      ∃ res b2 k2, next b1 k1 = .ok (res, b2, k2) ∧ SolvePost shuffle b1 row (col + 1) res b2)
    {b : Board} (hb : b.WF) (h0 : cellOf b row col = 0) (cands : List Int) :
    ∀ k, ∃ res b2 k2, tryCandidates next row col cands b k = .ok (res, b2, k2) ∧
      b2.WF ∧ Agrees b b2 ∧ (res = false → b2 = b) ∧
      (res = true →
        ∀ r, r < 9 → ∀ c, c < 9 → 9 * row + col ≤ 9 * r + c → cellOf b2 r c ≠ 0) ∧
      ((∀ k, ∀ d ∈ shuffle k, 1 ≤ d ∧ d ≤ 9) → (∀ d ∈ cands, 1 ≤ d ∧ d ≤ 9) →
        ConflictFree b → InRange b → ConflictFree b2 ∧ InRange b2) ∧
      ((∀ k, ∀ d ∈ digits, d ∈ shuffle k) → ∀ g : Board, g.WF → Solved g → Agrees b g →
        cellOf g row col ∈ cands → res = true) := by
  induction cands with
  | nil =>
    intro k
    refine ⟨false, b, k, rfl, hb, fun _ _ _ _ _ => rfl, fun _ => rfl, fun h => (by cases h),
      fun _ _ hcf hin => ⟨hcf, hin⟩, ?_⟩
    intro _ g _ _ _ hmem
    cases hmem
  | cons num rest ih =>
    intro k
    rw [tryCandidates, isValidMove_eq hb hr hc]
    by_cases hocc : Occurs b row col num
    · have hd : decide (¬ Occurs b row col num) = false := by simp [hocc]
      rw [hd]
      obtain ⟨res, b2, k2, he, hwf, hfr, hat, hfi, hso, hco⟩ := ih k
      refine ⟨res, b2, k2, he, hwf, hfr, hat, hfi, ?_, ?_⟩
      · intro hs hcs
        exact hso hs (fun d hd => hcs d (List.mem_cons_of_mem _ hd))
      · intro hs g hg hsol hag hmem
        have hne := completion_ne_of_occurs hsol hag hr hc h0 hocc
        rcases List.mem_cons.mp hmem with h | h
        · exact absurd h hne
        · exact hco hs g hg hsol hag h
    · have hd : decide (¬ Occurs b row col num) = true := by simp [hocc]
      rw [hd]
      simp only []
      rw [writeCell_of_WF hb hr hc]
      have hpw := putCell_WF hb row col num
      have hnum : num ≠ 0 := ne_zero_of_not_occurs hc h0 hocc
      obtain ⟨res1, b1, k1, hn, post⟩ := hnext (putCell b row col num) k hpw
      simp only [hn]
      cases res1 with
      | true =>
        simp only []
        have hframe : Agrees b b1 := by
          intro r h1 c hc1 hne
          have e : ¬ (r = row ∧ c = col) := by
            rintro ⟨e1, e2⟩
            subst e1; subst e2
            exact hne h0
          have e2 : cellOf (putCell b row col num) r c = cellOf b r c := by
            rw [cellOf_putCell hb hr hc, if_neg e]
          rw [← e2]
          exact post.frame r h1 c hc1 (by rw [e2]; exact hne)
        refine ⟨true, b1, k1, rfl, post.wf, hframe, fun h => (by cases h), ?_, ?_,
          fun _ _ _ _ _ _ => rfl⟩
        · intro _ r h1 c hc1 hpos
          by_cases e : r = row ∧ c = col
          · obtain ⟨e1, e2⟩ := e
            subst e1; subst e2
            have e3 := cellOf_putCell_same hb hr hc num
            rw [post.frame r hr c hc (by rw [e3]; exact hnum), e3]
            exact hnum
          · exact post.filled rfl r h1 c hc1 (by omega)
        · intro hs hcs hcf hin
          exact post.sound hs (conflictFree_putCell hb hcf hr hc hocc)
            (inRange_putCell hb hin hr hc (hcs num (List.mem_cons_self _ _)))
      | false =>
        have e1 : b1 = putCell b row col num := post.atomic rfl
        subst e1
        simp only []
        rw [writeCell_of_WF hpw hr hc, putCell_putCell_restore hb hr hc num h0]
        obtain ⟨res, b2, k2, he, hwf, hfr, hat, hfi, hso, hco⟩ := ih k1
        refine ⟨res, b2, k2, he, hwf, hfr, hat, hfi, ?_, ?_⟩
        · intro hs hcs
          exact hso hs (fun d hd => hcs d (List.mem_cons_of_mem _ hd))
        · intro hs g hg hsol hag hmem
          have hne : cellOf g row col ≠ num := by
            intro e
            have hcomp : Completable (putCell b row col num) :=
              ⟨g, hg, hsol, by rw [← e]; exact agrees_putCell hb hag hr hc⟩
            have := post.complete hs hcomp
            cases this
          rcases List.mem_cons.mp hmem with h | h
          · exact absurd h hne
          · exact hco hs g hg hsol hag h

/-- The recursion of `solveSudoku` always returns within its budget and
establishes `SolvePost`. -/
theorem solveSudokuFuel_post (shuffle : Nat → List Int) :
    ∀ fuel (b : Board) (row col k : Nat), b.WF → row ≤ 8 → col ≤ 9 →
      81 < fuel + 9 * row + col →
      ∃ res b2 k2, solveSudokuFuel shuffle fuel b row col k = .ok (res, b2, k2) ∧
        SolvePost shuffle b row col res b2 := by
  intro fuel
  induction fuel with
  | zero =>
    intro b row col k _ h1 h2 h3
    omega
  | succ fuel ih =>
    intro b row col k hb h1 h2 h3
    by_cases hbase : row = 8 ∧ col = 9
    · refine ⟨true, b, k, by simp [solveSudokuFuel, GRID_SIZE, hbase], hb,
        fun _ _ _ _ _ => rfl, fun h => (by cases h), ?_, fun _ hcf hin => ⟨hcf, hin⟩,
        fun _ _ => rfl⟩
      intro _ r hr c hc hpos
      omega
    · obtain ⟨row2, col2, hrow2, hcol2, hpos, hdef⟩ :
          ∃ row2 col2, row2 ≤ 8 ∧ col2 ≤ 8 ∧ 9 * row2 + col2 = 9 * row + col ∧
            solveSudokuFuel shuffle (fuel + 1) b row col k =
              (match readCell b row2 col2 with
              | .error e => .error e
              | .ok v =>
                if v ≠ 0 then solveSudokuFuel shuffle fuel b row2 (col2 + 1) k
                else
                  tryCandidates
                    (fun b k2 => solveSudokuFuel shuffle fuel b row2 (col2 + 1) k2)
                    row2 col2 (shuffle k) b (k + 1)) := by
        by_cases hcol : col = 9
        · refine ⟨row + 1, 0, by omega, by omega, by omega, ?_⟩
          have hb2 : ¬ row = 8 := fun h => hbase ⟨h, hcol⟩
          subst hcol
          simp [solveSudokuFuel, GRID_SIZE, hb2]
        · refine ⟨row, col, by omega, by omega, rfl, ?_⟩
          simp [solveSudokuFuel, GRID_SIZE, hcol]
      rw [hdef, readCell_of_WF hb (by omega) (by omega)]
      simp only []
      by_cases hv : cellOf b row2 col2 ≠ 0
      · rw [if_pos hv]
        obtain ⟨res, b2, k2, he, post⟩ := ih b row2 (col2 + 1) k hb hrow2 (by omega) (by omega)
        refine ⟨res, b2, k2, he, post.wf, post.frame, post.atomic, ?_, post.sound,
          post.complete⟩
        intro hres r hr c hc hp
        by_cases e : r = row2 ∧ c = col2
        · obtain ⟨e1, e2⟩ := e
          subst e1; subst e2
          rw [post.frame r hr c hc hv]
          exact hv
        · exact post.filled hres r hr c hc (by omega)
      · rw [if_neg hv]
        have h0 : cellOf b row2 col2 = 0 := not_not.mp hv
        obtain ⟨res, b2, k2, he, hwf, hfr, hat, hfi, hso, hco⟩ :=
          tryCandidates_post shuffle
            (fun b k2 => solveSudokuFuel shuffle fuel b row2 (col2 + 1) k2)
            (by omega : row2 < 9) (by omega : col2 < 9)
            (fun b1 k1 hb1 => ih b1 row2 (col2 + 1) k1 hb1 hrow2 (by omega) (by omega))
            hb h0 (shuffle k) (k + 1)
        refine ⟨res, b2, k2, he, hwf, hfr, hat, ?_, ?_, ?_⟩
        · intro hres r hr c hc hp
          exact hfi hres r hr c hc (by omega)
        · intro hs hcf hin
          exact hso hs (hs k) hcf hin
        · intro hs hcomp
          obtain ⟨g, hg, hsol, hag⟩ := hcomp
          have hmem : cellOf g row2 col2 ∈ shuffle k :=
            hs k _ ((mem_digits_iff _).mpr
              ((conflictFree_of_solved hsol).2 row2 (by omega) col2 (by omega)))
          exact hco hs g hg hsol hag hmem


/-- From any start position on a 9x9 board the call either faults on its first
read (start outside the board) or returns with `SolvePost`. -/
theorem solveSudoku_post (shuffle : Nat → List Int) (b : Board) (hb : b.WF)
    (row col k : Nat) (hrow : row ≤ 8) (hcol : col ≤ 9) :
    ∃ res b2 k2, solveSudoku shuffle b row col k = .ok (res, b2, k2) ∧
      SolvePost shuffle b row col res b2 :=
  solveSudokuFuel_post shuffle _ b row col k hb hrow hcol (by simp [GRID_SIZE]; omega)

theorem solveSudoku_oob (shuffle : Nat → List Int) (b : Board) (hb : b.WF)
    (row col k : Nat) (h : ¬ (row ≤ 8 ∧ col ≤ 9)) :
    solveSudoku shuffle b row col k = .error .outOfBounds := by
  have hbase : ¬ (row = 8 ∧ col = 9) := fun hh => h ⟨by omega, by omega⟩
  by_cases hcol : col = 9
  · have hr : ¬ row = 8 := fun hh => hbase ⟨hh, hcol⟩
    have := readCell_oob hb (r := row + 1) (c := 0) (Or.inl (by omega))
    simp [solveSudoku, solveSudokuFuel, GRID_SIZE, hcol, hr, this]
  · have := readCell_oob hb (r := row) (c := col) (by omega)
    simp [solveSudoku, solveSudokuFuel, GRID_SIZE, hcol, this]

theorem perm_shuffle_range {shuffle : Nat → List Int} (hs : ∀ k, (shuffle k).Perm digits) :
    ∀ k, ∀ d ∈ shuffle k, 1 ≤ d ∧ d ≤ 9 :=
  fun k d hd => (mem_digits_iff d).mp ((hs k).mem_iff.mp hd)

theorem perm_shuffle_all {shuffle : Nat → List Int} (hs : ∀ k, (shuffle k).Perm digits) :
    ∀ k, ∀ d ∈ digits, d ∈ shuffle k :=
  fun k _ hd => (hs k).mem_iff.mpr hd

theorem emptyBoard_cellOf (r c : Nat) : cellOf emptyBoard r c = 0 := by
  unfold cellOf emptyBoard
  rw [List.getD_eq_getElem?_getD, List.getD_eq_getElem?_getD, List.getElem?_replicate]
  split
  · rw [Option.getD_some, List.getElem?_replicate]
    split <;> rfl
  · rfl

theorem identityShuffle_perm : ∀ k, (identityShuffle k).Perm digits :=
  fun _ => List.Perm.refl _

/-! ## The claims -/

/-- C1: on a 9x9 board, for a cell `(r, c)` in range and any digit `d` (in
particular `1..9`), `isValidMove` returns false exactly when `d` occurs in row
`r`, in column `c` or in the 3x3 box with origin `(r - r % 3, c - c % 3)`, and
returns true otherwise. -/
theorem isValidMove_false_iff_occurs (b : Board) (hb : b.WF) (r c : Nat) (hr : r < 9)
    (hc : c < 9) (d : Int) :
    (isValidMove b r c d = .ok false ↔ Occurs b r c d) ∧
      (isValidMove b r c d = .ok true ↔ ¬ Occurs b r c d) := by
  rw [isValidMove_eq hb hr hc]
  by_cases h : Occurs b r c d
  · simp [h]
  · simp [h]

set_option maxRecDepth 100000 in
theorem isValidMove_false_iff_occurs_witness :
    samplePuzzle.WF ∧ 0 < 9 ∧ 2 < 9 ∧
      ((isValidMove samplePuzzle 0 2 5 = .ok false ↔ Occurs samplePuzzle 0 2 5) ∧
        (isValidMove samplePuzzle 0 2 5 = .ok true ↔ ¬ Occurs samplePuzzle 0 2 5)) :=
  ⟨by decide, by decide, by decide,
    isValidMove_false_iff_occurs samplePuzzle (by decide) 0 2 (by decide) (by decide) 5⟩

/-- C2 (soundness): for a 9x9 board with entries in `0..9` whose non-zero cells
hold no digit twice in a row, column or box, and for every stream of candidate
orders (each a permutation of `1..9`), if `solveSudoku(board, 0, 0)` returns
true then the board it leaves has no zero cell and every row, column and box
of it is a permutation of `1..9`. -/
theorem solveSudoku_sound (shuffle : Nat → List Int) (hs : ∀ k, (shuffle k).Perm digits)
    (b : Board) (hb : b.WF) (hin : InRange b) (hcf : ConflictFree b) (k : Nat)
    (b2 : Board) (k2 : Nat) (h : solveSudoku shuffle b 0 0 k = .ok (true, b2, k2)) :
    b2.WF ∧ Full b2 ∧ Solved b2 := by
  obtain ⟨res, b3, k3, he, post⟩ := solveSudoku_post shuffle b hb 0 0 k (by omega) (by omega)
  rw [he] at h
  injection h with h
  injection h with h1 h2
  injection h2 with h2 h3
  subst h1; subst h2
  have hfull : Full b3 := fun r hr c hc => post.filled rfl r hr c hc (by omega)
  obtain ⟨hcf2, hin2⟩ := post.sound (perm_shuffle_range hs) hcf hin
  exact ⟨post.wf, hfull, solved_of_conflictFree hcf2 hin2 hfull⟩

set_option maxRecDepth 100000 in
theorem solveSudoku_sound_witness :
    (∀ k, (identityShuffle k).Perm digits) ∧ samplePuzzle.WF ∧ InRange samplePuzzle ∧
      ConflictFree samplePuzzle ∧
      solveSudoku identityShuffle samplePuzzle 0 0 0 = .ok (true, sampleGrid, 9) ∧
      (sampleGrid.WF ∧ Full sampleGrid ∧ Solved sampleGrid) :=
  ⟨identityShuffle_perm, by decide, by decide, by decide, by decide,
    solveSudoku_sound identityShuffle identityShuffle_perm samplePuzzle (by decide)
      (by decide) (by decide) 0 sampleGrid 9 (by decide)⟩

/-- C3 (completeness): for a 9x9 board and every stream of candidate orders
(each a permutation of `1..9`), if some complete valid grid agrees with the
board on all its non-zero cells then `solveSudoku(board, 0, 0)` returns true. -/
theorem solveSudoku_complete (shuffle : Nat → List Int)
    (hs : ∀ k, (shuffle k).Perm digits) (b : Board) (hb : b.WF) (hc : Completable b)
    (k : Nat) : ∃ b2 k2, solveSudoku shuffle b 0 0 k = .ok (true, b2, k2) := by
  obtain ⟨res, b3, k3, he, post⟩ := solveSudoku_post shuffle b hb 0 0 k (by omega) (by omega)
  have := post.complete (perm_shuffle_all hs) hc
  subst this
  exact ⟨b3, k3, he⟩

set_option maxRecDepth 100000 in
theorem solveSudoku_complete_witness :
    (∀ k, (identityShuffle k).Perm digits) ∧ samplePuzzle.WF ∧ Completable samplePuzzle ∧
      ∃ b2 k2, solveSudoku identityShuffle samplePuzzle 0 0 4 = .ok (true, b2, k2) :=
  ⟨identityShuffle_perm, by decide, ⟨sampleGrid, by decide, by decide, by decide⟩,
    solveSudoku_complete identityShuffle identityShuffle_perm samplePuzzle (by decide)
      ⟨sampleGrid, by decide, by decide, by decide⟩ 4⟩

/-- C4 (atomicity on failure): for a 9x9 board, any start position and any
stream of candidate lists, if `solveSudoku` returns false then the board after
the call equals the board before the call. -/
theorem solveSudoku_false_restores (shuffle : Nat → List Int) (b : Board) (hb : b.WF)
    (row col k : Nat) (b2 : Board) (k2 : Nat)
    (h : solveSudoku shuffle b row col k = .ok (false, b2, k2)) : b2 = b := by
  by_cases hpos : row ≤ 8 ∧ col ≤ 9
  · obtain ⟨res, b3, k3, he, post⟩ := solveSudoku_post shuffle b hb row col k hpos.1 hpos.2
    rw [he] at h
    injection h with h
    injection h with h1 h2
    injection h2 with h2 h3
    subst h1; subst h2
    exact post.atomic rfl
  · rw [solveSudoku_oob shuffle b hb row col k hpos] at h
    cases h

set_option maxRecDepth 100000 in
theorem solveSudoku_false_restores_witness :
    deadEndBoard.WF ∧
      solveSudoku identityShuffle deadEndBoard 0 0 0 = .ok (false, deadEndBoard, 1) ∧
      deadEndBoard = deadEndBoard :=
  ⟨by decide, by decide,
    solveSudoku_false_restores identityShuffle deadEndBoard (by decide) 0 0 0
      deadEndBoard 1 (by decide)⟩

/-- C5: for every stream of candidate orders (each a permutation of `1..9`),
`solveSudoku` applied at `(0, 0)` to the all-zero 9x9 board returns true and
leaves a board in which every row, column and box is a permutation of `1..9`. -/
theorem solveSudoku_emptyBoard (shuffle : Nat → List Int)
    (hs : ∀ k, (shuffle k).Perm digits) (k : Nat) :
    ∃ b2 k2, solveSudoku shuffle emptyBoard 0 0 k = .ok (true, b2, k2) ∧
      b2.WF ∧ Solved b2 := by
  have hb : emptyBoard.WF := by decide
  have hcomp : Completable emptyBoard :=
    ⟨sampleGrid, by decide, by decide, fun r _ c _ h => absurd (emptyBoard_cellOf r c) h⟩
  have hin : InRange emptyBoard := by
    intro r _ c _
    rw [emptyBoard_cellOf]; omega
  have hcf : ConflictFree emptyBoard := by
    intro r1 _ c1 _ _ _ _ _ _ h
    exact absurd (emptyBoard_cellOf r1 c1) h
  obtain ⟨b2, k2, he⟩ := solveSudoku_complete shuffle hs emptyBoard hb hcomp k
  obtain ⟨h1, _, h3⟩ := solveSudoku_sound shuffle hs emptyBoard hb hin hcf k b2 k2 he
  exact ⟨b2, k2, he, h1, h3⟩

theorem solveSudoku_emptyBoard_witness :
    (∀ k, (identityShuffle k).Perm digits) ∧
      ∃ b2 k2, solveSudoku identityShuffle emptyBoard 0 0 0 = .ok (true, b2, k2) ∧
        b2.WF ∧ Solved b2 :=
  ⟨identityShuffle_perm, solveSudoku_emptyBoard identityShuffle identityShuffle_perm 0⟩

/-- C6, as stated, fails: on `duplicateBoard`, whose first row holds the digit
`1` twice, `solveSudoku(board, 0, 0)` returns true and changes the board. -/
theorem solveSudoku_rowDuplicate_counterexample :
    ¬ (∀ (shuffle : Nat → List Int) (b : Board) (k : Nat),
        (∀ j, (shuffle j).Perm digits) → b.WF → HasRowDuplicate b →
          ∃ k2, solveSudoku shuffle b 0 0 k = .ok (false, b, k2)) := by
  intro h
  obtain ⟨k2, e⟩ := h identityShuffle duplicateBoard 0 identityShuffle_perm (by decide)
    (by decide)
  have e2 : solveSudoku identityShuffle duplicateBoard 0 0 0
      = .ok (true, duplicateBoardFilled, 1) := by decide
  rw [e2] at e
  cases e

/-- C6, amended: on a 9x9 board in which some digit of `1..9` occurs twice in
one row, for every stream of candidate lists, `solveSudoku(board, 0, 0)`
returns, never changes a non-zero cell, and so leaves a board that still has a
duplicated digit in a row; if it returns false the board equals its input, and
if it returns true the board is full but is not a valid grid. -/
theorem solveSudoku_rowDuplicate (shuffle : Nat → List Int) (b : Board) (hb : b.WF)
    (hdup : HasRowDuplicate b) (k : Nat) :
    ∃ res b2 k2, solveSudoku shuffle b 0 0 k = .ok (res, b2, k2) ∧ Agrees b b2 ∧
      HasRowDuplicate b2 ∧ (res = false → b2 = b) ∧ (res = true → Full b2 ∧ ¬ Solved b2) := by
  obtain ⟨res, b2, k2, he, post⟩ := solveSudoku_post shuffle b hb 0 0 k (by omega) (by omega)
  have hdup2 : HasRowDuplicate b2 := by
    obtain ⟨r, hr, c1, h1, c2, h2, hne, hlo, hhi, heq⟩ := hdup
    have e1 := post.frame r hr c1 h1 (by omega)
    have e2 := post.frame r hr c2 h2 (by omega)
    exact ⟨r, hr, c1, h1, c2, h2, hne, by omega, by omega, by omega⟩
  refine ⟨res, b2, k2, he, post.frame, hdup2, post.atomic, ?_⟩
  intro hres
  refine ⟨fun r hr c hc => post.filled hres r hr c hc (by omega), ?_⟩
  intro hsol
  obtain ⟨r, hr, c1, h1, c2, h2, hne, hlo, _, heq⟩ := hdup2
  exact hne ((conflictFree_of_solved hsol).1 r hr c1 h1 r hr c2 h2 (Or.inl rfl)
    (by omega) heq).2

set_option maxRecDepth 100000 in
theorem solveSudoku_rowDuplicate_witness :
    duplicateBoard.WF ∧ HasRowDuplicate duplicateBoard ∧
      ∃ res b2 k2, solveSudoku identityShuffle duplicateBoard 0 0 0 = .ok (res, b2, k2) ∧
        Agrees duplicateBoard b2 ∧ HasRowDuplicate b2 ∧ (res = false → b2 = duplicateBoard) ∧
        (res = true → Full b2 ∧ ¬ Solved b2) :=
  ⟨by decide, by decide,
    solveSudoku_rowDuplicate identityShuffle duplicateBoard (by decide) (by decide) 0⟩

/-! ## The session: `handleInput` -/

theorem readCellAt_natCast (b : Board) (r c : Nat) :
    readCellAt b (r : Int) (c : Int) = readCell b r c := by
  have h : ¬ ((r : Int) < 0 ∨ (c : Int) < 0) := by omega
  simp only [readCellAt, if_neg h, Int.toNat_natCast]

theorem writeCellAt_natCast (b : Board) (r c : Nat) (v : Int) :
    writeCellAt b (r : Int) (c : Int) v = writeCell b r c v := by
  have h : ¬ ((r : Int) < 0 ∨ (c : Int) < 0) := by omega
  simp only [writeCellAt, if_neg h, Int.toNat_natCast]

theorem readCellAt_ok {b : Board} (hb : b.WF) {r c v : Int}
    (h : readCellAt b r c = .ok v) :
    ∃ rn cn : Nat, r = rn ∧ c = cn ∧ rn < 9 ∧ cn < 9 ∧ v = cellOf b rn cn := by
  by_cases hneg : r < 0 ∨ c < 0
  · simp [readCellAt, hneg] at h
  · have hr : (r.toNat : Int) = r := Int.toNat_of_nonneg (by omega)
    have hc : (c.toNat : Int) = c := Int.toNat_of_nonneg (by omega)
    simp only [readCellAt, if_neg hneg] at h
    by_cases hin : r.toNat < 9 ∧ c.toNat < 9
    · rw [readCell_of_WF hb hin.1 hin.2] at h
      injection h with h
      exact ⟨r.toNat, c.toNat, hr.symm, hc.symm, hin.1, hin.2, h.symm⟩
    · rw [readCell_oob hb (by omega)] at h
      cases h

theorem agrees_putCell_blank {init b : Board} (hb : b.WF) (hag : Agrees init b) {r c : Nat}
    (hr : r < 9) (hc : c < 9) (h0 : cellOf init r c = 0) (v : Int) :
    Agrees init (putCell b r c v) := by
  intro r1 h1 c1 hc1 hne
  rw [cellOf_putCell hb hr hc]
  by_cases e : r1 = r ∧ c1 = c
  · obtain ⟨e1, e2⟩ := e
    subst e1; subst e2
    exact absurd h0 hne
  · rw [if_neg e]; exact hag r1 h1 c1 hc1 hne

/-- What one call of `handleInput` can do to the board: nothing, or one write
at the selection, which is then a cell of the board that is blank in the
initial puzzle. -/
theorem handleInput_board {init sol : Board} (hinit : init.WF) (e : Event) (t : Nat)
    {s s2 : Session} (hb : s.board.WF) (h : handleInput e init sol t s = .ok s2) :
    s2.board = s.board ∨
      ∃ r c : Nat, ∃ v : Int, s.selectedRow = r ∧ s.selectedCol = c ∧ r < 9 ∧ c < 9 ∧
        cellOf init r c = 0 ∧ s2.board = putCell s.board r c v ∧
        s2.selectedRow = s.selectedRow ∧ s2.selectedCol = s.selectedCol := by
  cases e with
  | other =>
    simp only [handleInput] at h
    injection h with h; subst h; exact Or.inl rfl
  | mouseButtonDown x y =>
    simp only [handleInput] at h
    split_ifs at h <;> (injection h with h; subst h; exact Or.inl rfl)
  | keyDown sym =>
    simp only [handleInput] at h
    split_ifs at h with h1 h2 h3 h4 h5 h6 h7
    · injection h with h; subst h; exact Or.inl rfl
    · injection h with h; subst h; exact Or.inl rfl
    · injection h with h; subst h; exact Or.inl rfl
    · injection h with h; subst h; exact Or.inl rfl
    · cases hrd : readCellAt init s.selectedRow s.selectedCol with
      | error f => rw [hrd] at h; cases h
      | ok given =>
        rw [hrd] at h
        obtain ⟨rn, cn, er, ec, hr, hc, hv⟩ := readCellAt_ok hinit hrd
        simp only [] at h
        split_ifs at h with hg
        · rw [er, ec, Int.toNat_natCast, Int.toNat_natCast, isValidMove_eq hb hr hc,
            writeCellAt_natCast, writeCell_of_WF hb hr hc] at h
          cases hd : decide (¬ Occurs s.board rn cn (sym - SDLK_0)) with
          | false =>
            rw [hd] at h
            injection h with h; subst h; exact Or.inl rfl
          | true =>
            rw [hd] at h
            injection h with h; subst h
            exact Or.inr ⟨rn, cn, _, er, ec, hr, hc, by rw [← hv]; exact hg, rfl, er.symm, ec.symm⟩
        · injection h with h; subst h; exact Or.inl rfl
    · cases hrd : readCellAt init s.selectedRow s.selectedCol with
      | error f => rw [hrd] at h; cases h
      | ok given =>
        rw [hrd] at h
        obtain ⟨rn, cn, er, ec, hr, hc, hv⟩ := readCellAt_ok hinit hrd
        simp only [] at h
        split_ifs at h with hg
        · rw [er, ec, writeCellAt_natCast, writeCell_of_WF hb hr hc] at h
          injection h with h; subst h
          exact Or.inr ⟨rn, cn, _, er, ec, hr, hc, by rw [← hv]; exact hg, rfl, er.symm, ec.symm⟩
        · injection h with h; subst h; exact Or.inl rfl
    · injection h with h; subst h; exact Or.inl rfl
    · injection h with h; subst h; exact Or.inl rfl


theorem selection_nat {s : Session} (hsel : SelectionInRange s) :
    ∃ rn cn : Nat, s.selectedRow = rn ∧ s.selectedCol = cn ∧ rn < 9 ∧ cn < 9 := by
  obtain ⟨h1, h2, h3, h4⟩ := hsel
  refine ⟨s.selectedRow.toNat, s.selectedCol.toNat, (Int.toNat_of_nonneg h1).symm,
    (Int.toNat_of_nonneg h3).symm, ?_, ?_⟩
  · omega
  · omega

theorem wrap_prev {x : Int} (h0 : 0 ≤ x) (h9 : x < 9) :
    0 ≤ (x - 1 + ((GRID_SIZE : Nat) : Int)).tmod ((GRID_SIZE : Nat) : Int) ∧
      (x - 1 + ((GRID_SIZE : Nat) : Int)).tmod ((GRID_SIZE : Nat) : Int) < 9 := by
  have e : ((GRID_SIZE : Nat) : Int) = 9 := rfl
  rw [e, Int.tmod_eq_emod (by omega) (by omega)]
  omega

theorem wrap_next {x : Int} (h0 : 0 ≤ x) (h9 : x < 9) :
    0 ≤ (x + 1).tmod ((GRID_SIZE : Nat) : Int) ∧ (x + 1).tmod ((GRID_SIZE : Nat) : Int) < 9 := by
  have e : ((GRID_SIZE : Nat) : Int) = 9 := rfl
  rw [e, Int.tmod_eq_emod (by omega) (by omega)]
  omega

/-- A key press handled with the selection in range never faults and leaves the
selection in range. -/
theorem handleInput_key_total {init sol : Board} (hinit : init.WF) (sym : Int) (t : Nat)
    {s : Session} (hb : s.board.WF) (hsel : SelectionInRange s) :
    ∃ s2, handleInput (.keyDown sym) init sol t s = .ok s2 ∧ SelectionInRange s2 ∧
      s2.board.WF := by
  obtain ⟨rn, cn, er, ec, hr, hc⟩ := selection_nat hsel
  obtain ⟨g1, g2, g3, g4⟩ := hsel
  simp only [handleInput]
  split_ifs with h1 h2 h3 h4 h5 h6 h7
  · exact ⟨_, rfl, ⟨(wrap_prev g1 g2).1, (wrap_prev g1 g2).2, g3, g4⟩, hb⟩
  · exact ⟨_, rfl, ⟨(wrap_next g1 g2).1, (wrap_next g1 g2).2, g3, g4⟩, hb⟩
  · exact ⟨_, rfl, ⟨g1, g2, (wrap_prev g3 g4).1, (wrap_prev g3 g4).2⟩, hb⟩
  · exact ⟨_, rfl, ⟨g1, g2, (wrap_next g3 g4).1, (wrap_next g3 g4).2⟩, hb⟩
  · rw [er, ec, readCellAt_natCast, readCell_of_WF hinit hr hc]
    simp only []
    split_ifs with hg
    · rw [Int.toNat_natCast, Int.toNat_natCast, isValidMove_eq hb hr hc,
        writeCellAt_natCast, writeCell_of_WF hb hr hc]
      cases decide (¬ Occurs s.board rn cn (sym - SDLK_0)) with
      | false => exact ⟨_, rfl, ⟨g1, g2, g3, g4⟩, hb⟩
      | true => exact ⟨_, rfl, (by simp only [SelectionInRange]; omega), putCell_WF hb _ _ _⟩
    · exact ⟨_, rfl, ⟨g1, g2, g3, g4⟩, hb⟩
  · rw [er, ec, readCellAt_natCast, readCell_of_WF hinit hr hc]
    simp only []
    split_ifs with hg
    · rw [writeCellAt_natCast, writeCell_of_WF hb hr hc]
      exact ⟨_, rfl, (by simp only [SelectionInRange]; omega), putCell_WF hb _ _ _⟩
    · exact ⟨_, rfl, ⟨g1, g2, g3, g4⟩, hb⟩
  · exact ⟨_, rfl, ⟨g1, g2, g3, g4⟩, hb⟩
  · exact ⟨_, rfl, ⟨g1, g2, g3, g4⟩, hb⟩

theorem handleInput_agrees {init sol : Board} (hinit : init.WF) (e : Event) (t : Nat)
    {s s2 : Session} (hb : s.board.WF) (hag : Agrees init s.board)
    (h : handleInput e init sol t s = .ok s2) : s2.board.WF ∧ Agrees init s2.board := by
  rcases handleInput_board hinit e t hb h with h1 | ⟨r, c, v, _, _, hr, hc, h0, h1, _, _⟩
  · rw [h1]; exact ⟨hb, hag⟩
  · rw [h1]; exact ⟨putCell_WF hb _ _ _, agrees_putCell_blank hb hag hr hc h0 v⟩

theorem runEvents_agrees {init sol : Board} (hinit : init.WF) (events : List (Event × Nat)) :
    ∀ s : Session, s.board.WF → Agrees init s.board →
      ∀ s2, runEvents init sol events s = .ok s2 → s2.board.WF ∧ Agrees init s2.board := by
  induction events with
  | nil =>
    intro s hb hag s2 h
    simp only [runEvents] at h
    injection h with h; subst h; exact ⟨hb, hag⟩
  | cons et rest ih =>
    intro s hb hag s2 h
    obtain ⟨e, t⟩ := et
    simp only [runEvents] at h
    cases hstep : handleInput e init sol t s with
    | error f => rw [hstep] at h; cases h
    | ok s1 =>
      rw [hstep] at h
      obtain ⟨hb1, hag1⟩ := handleInput_agrees hinit e t hb hag hstep
      exact ih s1 hb1 hag1 s2 h

theorem runEvents_keys_total {init sol : Board} (hinit : init.WF)
    (events : List (Event × Nat)) :
    ∀ s : Session, (∀ e ∈ events, e.1.isKey = true) → s.board.WF → SelectionInRange s →
      ∃ s2, runEvents init sol events s = .ok s2 ∧ SelectionInRange s2 := by
  induction events with
  | nil =>
    intro s _ _ hsel
    exact ⟨s, rfl, hsel⟩
  | cons et rest ih =>
    intro s hk hb hsel
    obtain ⟨e, t⟩ := et
    have hke := hk (e, t) (List.mem_cons_self _ _)
    cases e with
    | keyDown sym =>
      obtain ⟨s1, hstep, hsel1, hb1⟩ := @handleInput_key_total init sol hinit sym t s hb hsel
      obtain ⟨s2, hrun, hsel2⟩ :=
        ih s1 (fun e he => hk e (List.mem_cons_of_mem _ he)) hb1 hsel1
      exact ⟨s2, by simp only [runEvents, hstep]; exact hrun, hsel2⟩
    | mouseButtonDown x y => simp [Event.isKey] at hke
    | other => simp [Event.isKey] at hke

theorem agrees_refl (b : Board) : Agrees b b := fun _ _ _ _ _ => rfl

/-- C9 (EnterDigit): with both boards 9x9 and the selection `(r, c)` in range,
the key of a digit `d` in `1..9` sets `playerBoard[r][c]` to `d` and changes
nothing else (no other cell, not the selection, not the check mode) when
`initialPuzzle[r][c] == 0` and `isValidMove(playerBoard, r, c, d)` holds on the
current player board; otherwise the whole state is unchanged. The outcome does
not depend on the solution board. -/
theorem handleInput_enterDigit (init sol : Board) (hinit : init.WF) (t : Nat) (s : Session)
    (hb : s.board.WF) (r c : Nat) (hr : r < 9) (hc : c < 9) (hsr : s.selectedRow = r)
    (hsc : s.selectedCol = c) (d : Int) (hd : 1 ≤ d ∧ d ≤ 9) :
    handleInput (.keyDown (SDLK_0 + d)) init sol t s =
        .ok (if cellOf init r c = 0 ∧ isValidMove s.board r c d = .ok true
          then { s with board := putCell s.board r c d } else s) ∧
      cellOf (putCell s.board r c d) r c = d ∧
      (∀ r2 c2, ¬ (r2 = r ∧ c2 = c) →
        cellOf (putCell s.board r c d) r2 c2 = cellOf s.board r2 c2) ∧
      (∀ sol2 : Board, handleInput (.keyDown (SDLK_0 + d)) init sol2 t s =
        handleInput (.keyDown (SDLK_0 + d)) init sol t s) := by
  refine ⟨?_, cellOf_putCell_same hb hr hc d, ?_, fun _ => rfl⟩
  · have hup : ¬ (SDLK_0 + d = SDLK_UP) := by simp only [SDLK_0, SDLK_UP]; omega
    have hdown : ¬ (SDLK_0 + d = SDLK_DOWN) := by simp only [SDLK_0, SDLK_DOWN]; omega
    have hleft : ¬ (SDLK_0 + d = SDLK_LEFT) := by simp only [SDLK_0, SDLK_LEFT]; omega
    have hright : ¬ (SDLK_0 + d = SDLK_RIGHT) := by simp only [SDLK_0, SDLK_RIGHT]; omega
    have hdig : SDLK_0 + d = SDLK_1 ∨ SDLK_0 + d = SDLK_2 ∨ SDLK_0 + d = SDLK_3 ∨
        SDLK_0 + d = SDLK_4 ∨ SDLK_0 + d = SDLK_5 ∨ SDLK_0 + d = SDLK_6 ∨
        SDLK_0 + d = SDLK_7 ∨ SDLK_0 + d = SDLK_8 ∨ SDLK_0 + d = SDLK_9 := by
      simp only [SDLK_0, SDLK_1, SDLK_2, SDLK_3, SDLK_4, SDLK_5, SDLK_6, SDLK_7, SDLK_8,
        SDLK_9]
      omega
    have hnum : SDLK_0 + d - SDLK_0 = d := by omega
    simp only [handleInput, if_neg hup, if_neg hdown, if_neg hleft, if_neg hright,
      if_pos hdig, hnum]
    rw [hsr, hsc, readCellAt_natCast, readCell_of_WF hinit hr hc]
    simp only []
    by_cases hg : cellOf init r c = 0
    · rw [if_pos hg, Int.toNat_natCast, Int.toNat_natCast, isValidMove_eq hb hr hc,
        writeCellAt_natCast, writeCell_of_WF hb hr hc]
      cases hdec : decide (¬ Occurs s.board r c d) with
      | false => simp [hg]
      | true => simp [hg]
    · rw [if_neg hg]
      simp [hg]
  · intro r2 c2 hne
    rw [cellOf_putCell hb hr hc, if_neg hne]

set_option maxRecDepth 100000 in
theorem handleInput_enterDigit_witness :
    samplePuzzle.WF ∧ (initialSession samplePuzzle).board.WF ∧ 0 < 9 ∧ 0 < 9 ∧
      (initialSession samplePuzzle).selectedRow = (0 : Nat) ∧
      (initialSession samplePuzzle).selectedCol = (0 : Nat) ∧ ((1 : Int) ≤ 1 ∧ (1 : Int) ≤ 9) ∧
      handleInput (.keyDown SDLK_1) samplePuzzle sampleGrid 0 (initialSession samplePuzzle)
        = .ok { initialSession samplePuzzle with board := putCell samplePuzzle 0 0 1 } :=
  ⟨by decide, by decide, by decide, by decide, rfl, rfl, by decide,
    (handleInput_enterDigit samplePuzzle sampleGrid (by decide) 0
      (initialSession samplePuzzle) (by decide) 0 0 (by decide) (by decide) rfl rfl 1
      (by decide)).1.trans (by decide)⟩

/-- C10 (given cells are immutable): starting with `playerBoard` equal to the
9x9 `initialPuzzle`, after any finite sequence of handled events every cell
that is non-zero in `initialPuzzle` holds the same value in `playerBoard`
(first part, for every run that does not index outside the boards); a sequence
of key presses started with the selection in range always runs to its end
(second part); and a digit key pressed with the selection on a given cell
leaves the state unchanged (third part). -/
theorem givens_immutable (init sol : Board) (hinit : init.WF) (events : List (Event × Nat))
    (s : Session) (hs : s.board = init) (hsel : SelectionInRange s) :
    (∀ s2, runEvents init sol events s = .ok s2 → Agrees init s2.board) ∧
      ((∀ e ∈ events, e.1.isKey = true) →
        ∃ s2, runEvents init sol events s = .ok s2 ∧ Agrees init s2.board) ∧
      (∀ (s1 : Session) (r c : Nat) (d : Int) (t : Nat), s1.selectedRow = r →
        s1.selectedCol = c → r < 9 → c < 9 → cellOf init r c ≠ 0 → 1 ≤ d ∧ d ≤ 9 →
        handleInput (.keyDown (SDLK_0 + d)) init sol t s1 = .ok s1) := by
  have hb : s.board.WF := by rw [hs]; exact hinit
  have hag : Agrees init s.board := by rw [hs]; exact agrees_refl init
  refine ⟨fun s2 h => (runEvents_agrees hinit events s hb hag s2 h).2, ?_, ?_⟩
  · intro hk
    obtain ⟨s2, hrun, _⟩ := @runEvents_keys_total init sol hinit events s hk hb hsel
    exact ⟨s2, hrun, (runEvents_agrees hinit events s hb hag s2 hrun).2⟩
  · intro s1 r c d t hsr hsc hr hc hg hd
    have hup : ¬ (SDLK_0 + d = SDLK_UP) := by simp only [SDLK_0, SDLK_UP]; omega
    have hdown : ¬ (SDLK_0 + d = SDLK_DOWN) := by simp only [SDLK_0, SDLK_DOWN]; omega
    have hleft : ¬ (SDLK_0 + d = SDLK_LEFT) := by simp only [SDLK_0, SDLK_LEFT]; omega
    have hright : ¬ (SDLK_0 + d = SDLK_RIGHT) := by simp only [SDLK_0, SDLK_RIGHT]; omega
    have hdig : SDLK_0 + d = SDLK_1 ∨ SDLK_0 + d = SDLK_2 ∨ SDLK_0 + d = SDLK_3 ∨
        SDLK_0 + d = SDLK_4 ∨ SDLK_0 + d = SDLK_5 ∨ SDLK_0 + d = SDLK_6 ∨
        SDLK_0 + d = SDLK_7 ∨ SDLK_0 + d = SDLK_8 ∨ SDLK_0 + d = SDLK_9 := by
      simp only [SDLK_0, SDLK_1, SDLK_2, SDLK_3, SDLK_4, SDLK_5, SDLK_6, SDLK_7, SDLK_8,
        SDLK_9]
      omega
    simp only [handleInput, if_neg hup, if_neg hdown, if_neg hleft, if_neg hright,
      if_pos hdig]
    rw [hsr, hsc, readCellAt_natCast, readCell_of_WF hinit hr hc]
    simp only [if_neg hg]


set_option maxRecDepth 100000 in
theorem givens_immutable_witness :
    samplePuzzle.WF ∧ (initialSession samplePuzzle).board = samplePuzzle ∧
      SelectionInRange (initialSession samplePuzzle) ∧
      ∃ s2, runEvents samplePuzzle sampleGrid
          [(.keyDown SDLK_DOWN, 0), (.keyDown SDLK_5, 1), (.keyDown SDLK_UP, 2),
            (.keyDown SDLK_1, 3)] (initialSession samplePuzzle) = .ok s2 ∧
        Agrees samplePuzzle s2.board :=
  ⟨by decide, rfl, by decide,
    (givens_immutable samplePuzzle sampleGrid (by decide)
      [(.keyDown SDLK_DOWN, 0), (.keyDown SDLK_5, 1), (.keyDown SDLK_UP, 2),
        (.keyDown SDLK_1, 3)] (initialSession samplePuzzle) rfl (by decide)).2.1
      (by decide)⟩

/-! ## The generator -/

theorem fillBox_WF (numbers : List Int) (hlen : numbers.length = 9) (i : Nat) (hi : i ≤ 6)
    (cs : List (Nat × Nat)) (hcs : ∀ p ∈ cs, p.1 < 3 ∧ p.2 < 3) :
    ∀ b : Board, b.WF → ∃ b2, fillBox numbers i cs b = .ok b2 ∧ b2.WF := by
  induction cs with
  | nil => intro b hb; exact ⟨b, rfl, hb⟩
  | cons p rest ih =>
    intro b hb
    obtain ⟨row, col⟩ := p
    have hp := hcs (row, col) (List.mem_cons_self _ _)
    simp only at hp
    have hidx : row * 3 + col < numbers.length := by omega
    simp only [fillBox, List.getElem?_eq_getElem hidx]
    rw [writeCell_of_WF hb (by omega) (by omega)]
    exact ih (fun q hq => hcs q (List.mem_cons_of_mem _ hq)) _ (putCell_WF hb _ _ _)

theorem boxCells_lt : ∀ p ∈ boxCells, p.1 < 3 ∧ p.2 < 3 := by decide

/-- With shuffles of length nine `fillDiagonal` never faults on a 9x9 board. -/
theorem fillDiagonal_WF (shuffle : Nat → List Int) (hs : ∀ k, (shuffle k).Perm digits)
    (b : Board) (hb : b.WF) : ∃ b2, fillDiagonal shuffle b = .ok b2 ∧ b2.WF := by
  have hlen : ∀ k, (shuffle k).length = 9 := fun k => (hs k).length_eq
  obtain ⟨b1, e1, h1⟩ := fillBox_WF (shuffle 0) (hlen 0) 0 (by omega) boxCells boxCells_lt b hb
  obtain ⟨b2, e2, h2⟩ := fillBox_WF (shuffle 1) (hlen 1) 3 (by omega) boxCells boxCells_lt b1 h1
  obtain ⟨b3, e3, h3⟩ := fillBox_WF (shuffle 2) (hlen 2) 6 (by omega) boxCells boxCells_lt b2 h2
  exact ⟨b3, by simp only [fillDiagonal, e1, e2, e3], h3⟩

theorem mem_allCells (p : Nat × Nat) : p ∈ allCells ↔ p.1 < 9 ∧ p.2 < 9 := by
  obtain ⟨r, c⟩ := p
  simp only [allCells, GRID_SIZE, List.mem_flatMap, List.mem_range, List.mem_map, Prod.mk.injEq]
  constructor
  · rintro ⟨a, ha, b, hb, rfl, rfl⟩
    exact ⟨ha, hb⟩
  · rintro ⟨h1, h2⟩
    exact ⟨r, h1, c, h2, rfl, rfl⟩

theorem allCells_nodup : allCells.Nodup := by decide

theorem removeLoop_spec (cs : List (Nat × Nat)) (hcs : ∀ p ∈ cs, p.1 < 9 ∧ p.2 < 9) :
    ∀ b : Board, b.WF → ∃ b2, removeLoop cs b = .ok b2 ∧ b2.WF ∧
      ∀ r c, r < 9 → c < 9 → cellOf b2 r c = if (r, c) ∈ cs then 0 else cellOf b r c := by
  induction cs with
  | nil => intro b hb; exact ⟨b, rfl, hb, fun _ _ _ _ => by simp⟩
  | cons p rest ih =>
    intro b hb
    obtain ⟨row, col⟩ := p
    have hp := hcs (row, col) (List.mem_cons_self _ _)
    simp only at hp
    simp only [removeLoop]
    rw [writeCell_of_WF hb hp.1 hp.2]
    obtain ⟨b2, e, hwf, hcell⟩ :=
      ih (fun q hq => hcs q (List.mem_cons_of_mem _ hq)) _ (putCell_WF hb row col 0)
    refine ⟨b2, e, hwf, ?_⟩
    intro r c hr hc
    rw [hcell r c hr hc, cellOf_putCell hb hp.1 hp.2]
    by_cases h1 : (r, c) ∈ rest
    · simp [h1]
    · by_cases h2 : r = row ∧ c = col
      · simp [h2]
      · have h3 : ¬ ((r, c) = (row, col)) := by
          intro h; injection h with ha hb; exact h2 ⟨ha, hb⟩
        simp [h1, h2, h3]

/-- Removing the first `n` cells of a shuffle of all coordinates from a full
board leaves exactly `81 - n` non-zero cells. -/
theorem removeCells_clueCount (cells : List (Nat × Nat)) (hperm : cells.Perm allCells)
    (b : Board) (hb : b.WF) (hfull : Full b) (n : Nat) (hn : n ≤ 81) :
    ∃ b2, removeCells cells b n = .ok b2 ∧ b2.WF ∧ clueCount b2 = 81 - n := by
  have hlen : cells.length = 81 := by rw [hperm.length_eq]; decide
  have hnd : cells.Nodup := hperm.nodup_iff.mpr allCells_nodup
  have hin : ∀ p ∈ cells, p.1 < 9 ∧ p.2 < 9 := fun p hp =>
    (mem_allCells p).mp (hperm.mem_iff.mp hp)
  obtain ⟨b2, e, hwf, hcell⟩ := removeLoop_spec (cells.take n)
    (fun p hp => hin p (List.mem_of_mem_take hp)) b hb
  refine ⟨b2, by simp only [removeCells, hlen, hn, if_true, e], hwf, ?_⟩
  have hfilter : ∀ l : List (Nat × Nat), (∀ p ∈ l, p.1 < 9 ∧ p.2 < 9) →
      l.filter (fun p => decide (cellOf b2 p.1 p.2 ≠ 0))
        = l.filter (fun p => decide (p ∉ cells.take n)) := by
    intro l hl
    apply List.filter_congr
    intro p hp
    obtain ⟨r, c⟩ := p
    have := hl (r, c) hp
    simp only at this
    rw [hcell r c this.1 this.2]
    by_cases h : (r, c) ∈ cells.take n
    · simp [h]
    · simp [h, hfull r this.1 c this.2]
  unfold clueCount
  rw [hfilter allCells (fun p hp => (mem_allCells p).mp hp)]
  rw [(hperm.symm.filter _).length_eq]
  have hsplit : cells = cells.take n ++ cells.drop n := (List.take_append_drop n cells).symm
  have hnd2 : (cells.take n ++ cells.drop n).Nodup := by rw [← hsplit]; exact hnd
  have hdisj := (List.nodup_append.mp hnd2).2.2
  have h1 : (cells.take n).filter (fun p => decide (p ∉ cells.take n)) = [] := by
    apply List.filter_eq_nil_iff.mpr
    intro p hp
    simp [hp]
  have h2 : (cells.drop n).filter (fun p => decide (p ∉ cells.take n)) = cells.drop n := by
    apply List.filter_eq_self.mpr
    intro p hp
    have : p ∉ cells.take n := fun h => hdisj h hp
    simp [this]
  have key : ∀ P : Nat × Nat → Bool, (cells.filter P).length
      = ((cells.take n).filter P).length + ((cells.drop n).filter P).length := by
    intro P
    conv_lhs => rw [hsplit]
    rw [List.filter_append, List.length_append]
  rw [key, h1, h2, List.length_nil, Nat.zero_add, List.length_drop, hlen]

/-- The non-zero cells of a completable board are conflict-free and in `1..9`. -/
theorem conflictFree_of_completable {b : Board} (h : Completable b) :
    ConflictFree b ∧ InRange b := by
  obtain ⟨g, _, hsol, hag⟩ := h
  obtain ⟨hcf, hrange⟩ := conflictFree_of_solved hsol
  constructor
  · intro r1 h1 c1 hc1 r2 h2 c2 hc2 hu hne heq
    have e1 := hag r1 h1 c1 hc1 hne
    have e2 := hag r2 h2 c2 hc2 (by rw [← heq]; exact hne)
    exact hcf r1 h1 c1 hc1 r2 h2 c2 hc2 hu (by rw [e1]; exact hne) (by rw [e1, e2]; exact heq)
  · intro r hr c hc
    by_cases h0 : cellOf b r c = 0
    · rw [h0]; omega
    · have := hrange r hr c hc
      rw [hag r hr c hc h0] at this
      omega

/-- What is proved of `generateSudoku`: whenever the diagonally seeded board has
a completion, the completion step returns true and the puzzle returned has
exactly 30 non-zero cells. -/
theorem generateSudoku_of_completable (shuffle : Nat → List Int)
    (hs : ∀ k, (shuffle k).Perm digits) (cells : List (Nat × Nat))
    (hperm : cells.Perm allCells) (seeded : Board)
    (hseed : fillDiagonal shuffle emptyBoard = .ok seeded) (hcomp : Completable seeded) :
    ∃ completed k2 puzzle, solveSudoku shuffle seeded 0 0 3 = .ok (true, completed, k2) ∧
      Solved completed ∧ generateSudoku shuffle cells = .ok puzzle ∧ puzzle.WF ∧
      clueCount puzzle = 30 := by
  obtain ⟨b1, e1, hwf⟩ := fillDiagonal_WF shuffle hs emptyBoard (by decide)
  rw [hseed] at e1
  injection e1 with e1
  subst e1
  obtain ⟨completed, k2, hsolve⟩ := solveSudoku_complete shuffle hs seeded hwf hcomp 3
  obtain ⟨hcf, hin⟩ := conflictFree_of_completable hcomp
  obtain ⟨hwf2, hfull, hsolved⟩ :=
    solveSudoku_sound shuffle hs seeded hwf hin hcf 3 completed k2 hsolve
  obtain ⟨puzzle, hrem, hwf3, hcount⟩ :=
    removeCells_clueCount cells hperm completed hwf2 hfull 51 (by omega)
  refine ⟨completed, k2, puzzle, hsolve, hsolved, ?_, hwf3, hcount⟩
  simp only [generateSudoku, hseed, hsolve]
  exact hrem

/-! ## Session steps, check mode, seeding, termination and index safety -/

theorem key_ne_arrows {d : Int} (hd : 1 ≤ d ∧ d ≤ 127) :
    ¬ (d = SDLK_UP) ∧ ¬ (d = SDLK_DOWN) ∧ ¬ (d = SDLK_LEFT) ∧ ¬ (d = SDLK_RIGHT) := by
  simp only [SDLK_UP, SDLK_DOWN, SDLK_LEFT, SDLK_RIGHT]
  omega

theorem not_digit_key {sym : Int} (h : sym < 49 ∨ 57 < sym) :
    ¬ (sym = SDLK_1 ∨ sym = SDLK_2 ∨ sym = SDLK_3 ∨ sym = SDLK_4 ∨ sym = SDLK_5 ∨
        sym = SDLK_6 ∨ sym = SDLK_7 ∨ sym = SDLK_8 ∨ sym = SDLK_9) := by
  simp only [SDLK_1, SDLK_2, SDLK_3, SDLK_4, SDLK_5, SDLK_6, SDLK_7, SDLK_8, SDLK_9]
  omega

/-- What `handleInput` does on a key that clears the cell. -/
theorem handleInput_clear_eq (init sol : Board) (t : Nat) (s : Session) (sym : Int)
    (hsym : sym = SDLK_BACKSPACE ∨ sym = SDLK_DELETE) :
    handleInput (.keyDown sym) init sol t s =
      (match readCellAt init s.selectedRow s.selectedCol with
      | .error f => .error f
      | .ok given =>
        if given = 0 then
          match writeCellAt s.board s.selectedRow s.selectedCol 0 with
          | .error f => .error f
          | .ok b2 => .ok { s with board := b2 }
        else .ok s) := by
  have hr : 1 ≤ sym ∧ sym ≤ 127 := by
    rcases hsym with h | h <;> rw [h] <;> simp [SDLK_BACKSPACE, SDLK_DELETE]
  have hnd : sym < 49 ∨ 57 < sym := by
    rcases hsym with h | h <;> rw [h] <;> simp [SDLK_BACKSPACE, SDLK_DELETE]
  obtain ⟨h1, h2, h3, h4⟩ := key_ne_arrows hr
  simp only [handleInput, if_neg h1, if_neg h2, if_neg h3, if_neg h4,
    if_neg (not_digit_key hnd), if_pos hsym]

/-- C11 (ClearCell): with both boards 9x9 and the selection `(r, c)` in range,
Backspace or Delete sets `playerBoard[r][c]` to `0` and changes nothing else
when `initialPuzzle[r][c] == 0`; when `initialPuzzle[r][c]` is non-zero the
state is left unchanged. -/
theorem handleInput_clearCell (init sol : Board) (hinit : init.WF) (t : Nat) (s : Session)
    (hb : s.board.WF) (r c : Nat) (hr : r < 9) (hc : c < 9) (hsr : s.selectedRow = r)
    (hsc : s.selectedCol = c) (sym : Int) (hsym : sym = SDLK_BACKSPACE ∨ sym = SDLK_DELETE) :
    handleInput (.keyDown sym) init sol t s =
        .ok (if cellOf init r c = 0 then { s with board := putCell s.board r c 0 } else s) ∧
      cellOf (putCell s.board r c 0) r c = 0 ∧
      (∀ r2 c2, ¬ (r2 = r ∧ c2 = c) →
        cellOf (putCell s.board r c 0) r2 c2 = cellOf s.board r2 c2) := by
  refine ⟨?_, cellOf_putCell_same hb hr hc 0, ?_⟩
  · rw [handleInput_clear_eq init sol t s sym hsym, hsr, hsc, readCellAt_natCast,
      readCell_of_WF hinit hr hc]
    simp only []
    by_cases hg : cellOf init r c = 0
    · rw [if_pos hg, if_pos hg, writeCellAt_natCast, writeCell_of_WF hb hr hc]
    · rw [if_neg hg, if_neg hg]
  · intro r2 c2 hne
    rw [cellOf_putCell hb hr hc, if_neg hne]

set_option maxRecDepth 100000 in
theorem handleInput_clearCell_witness :
    samplePuzzle.WF ∧ (initialSession (putCell samplePuzzle 0 0 1)).board.WF ∧ 0 < 9 ∧ 0 < 9 ∧
      (initialSession (putCell samplePuzzle 0 0 1)).selectedRow = (0 : Nat) ∧
      (initialSession (putCell samplePuzzle 0 0 1)).selectedCol = (0 : Nat) ∧
      (SDLK_DELETE = SDLK_BACKSPACE ∨ SDLK_DELETE = SDLK_DELETE) ∧
      handleInput (.keyDown SDLK_DELETE) samplePuzzle sampleGrid 0
          (initialSession (putCell samplePuzzle 0 0 1)) = .ok (initialSession samplePuzzle) :=
  ⟨by decide, by decide, by decide, by decide, rfl, rfl, Or.inr rfl,
    (handleInput_clearCell samplePuzzle sampleGrid (by decide) 0
      (initialSession (putCell samplePuzzle 0 0 1)) (by decide) 0 0 (by decide) (by decide)
      rfl rfl SDLK_DELETE (Or.inr rfl)).1.trans (by decide)⟩


theorem gridSize_cast : ((GRID_SIZE : Nat) : Int) = 9 := rfl

theorem wrap_prev_eq (r : Nat) (hr : r < 9) :
    ((r : Int) - 1 + ((GRID_SIZE : Nat) : Int)).tmod ((GRID_SIZE : Nat) : Int)
      = (((r + 8) % 9 : Nat) : Int) := by
  rw [gridSize_cast, Int.tmod_eq_emod (by omega) (by omega)]
  omega

theorem wrap_next_eq (r : Nat) :
    ((r : Int) + 1).tmod ((GRID_SIZE : Nat) : Int) = (((r + 1) % 9 : Nat) : Int) := by
  rw [gridSize_cast, Int.tmod_eq_emod (by omega) (by omega)]
  omega

/-- C12 (MoveSelection): with the selection `(r, c)` in `[0,9) x [0,9)`, Up
gives row `(r + 8) mod 9`, Down row `(r + 1) mod 9`, Left column
`(c + 8) mod 9` and Right column `(c + 1) mod 9`; the other coordinate, the
player board, the check mode and its time are unchanged (and `handleInput`
cannot write to the initial or the solution board). -/
theorem handleInput_moveSelection (init sol : Board) (t : Nat) (s : Session) (r c : Nat)
    (hr : r < 9) (hc : c < 9) (hsr : s.selectedRow = r) (hsc : s.selectedCol = c) :
    handleInput (.keyDown SDLK_UP) init sol t s
        = .ok { s with selectedRow := (((r + 8) % 9 : Nat) : Int) } ∧
      handleInput (.keyDown SDLK_DOWN) init sol t s
        = .ok { s with selectedRow := (((r + 1) % 9 : Nat) : Int) } ∧
      handleInput (.keyDown SDLK_LEFT) init sol t s
        = .ok { s with selectedCol := (((c + 8) % 9 : Nat) : Int) } ∧
      handleInput (.keyDown SDLK_RIGHT) init sol t s
        = .ok { s with selectedCol := (((c + 1) % 9 : Nat) : Int) } := by
  have d1 : ¬ (SDLK_DOWN = SDLK_UP) := by decide
  have l1 : ¬ (SDLK_LEFT = SDLK_UP) := by decide
  have l2 : ¬ (SDLK_LEFT = SDLK_DOWN) := by decide
  have r1 : ¬ (SDLK_RIGHT = SDLK_UP) := by decide
  have r2 : ¬ (SDLK_RIGHT = SDLK_DOWN) := by decide
  have r3 : ¬ (SDLK_RIGHT = SDLK_LEFT) := by decide
  refine ⟨?_, ?_, ?_, ?_⟩
  · simp only [handleInput, if_true]
    rw [hsr, wrap_prev_eq r hr]
  · simp only [handleInput, if_neg d1, if_true]
    rw [hsr, wrap_next_eq r]
  · simp only [handleInput, if_neg l1, if_neg l2, if_true]
    rw [hsc, wrap_prev_eq c hc]
  · simp only [handleInput, if_neg r1, if_neg r2, if_neg r3, if_true]
    rw [hsc, wrap_next_eq c]

theorem handleInput_moveSelection_witness :
    0 < 9 ∧ 4 < 9 ∧ (initialSession samplePuzzle).selectedRow = (0 : Nat) ∧
      ({ initialSession samplePuzzle with selectedCol := 4 } : Session).selectedCol = (4 : Nat) ∧
      handleInput (.keyDown SDLK_UP) samplePuzzle sampleGrid 0
          { initialSession samplePuzzle with selectedCol := 4 }
        = .ok { initialSession samplePuzzle with selectedRow := 8, selectedCol := 4 } :=
  ⟨by decide, by decide, rfl, rfl,
    (handleInput_moveSelection samplePuzzle sampleGrid 0
      { initialSession samplePuzzle with selectedCol := 4 } 0 4 (by decide) (by decide)
      rfl rfl).1⟩

/-- C13 fails on the code: a mouse press on the last pixel accepted by the grid
hit test (`mouseX <= PADDING + GRID_SIZE * CELL_SIZE`, pixel 460) selects row 9
and column 9, and the next digit key then indexes outside the boards. -/
theorem handleInput_edgeClick_out_of_range :
    handleInput (.mouseButtonDown 460 460) samplePuzzle sampleGrid 0
        (initialSession samplePuzzle)
      = .ok { initialSession samplePuzzle with selectedRow := 9, selectedCol := 9 } ∧
    ¬ SelectionInRange { initialSession samplePuzzle with selectedRow := 9, selectedCol := 9 } ∧
    handleInput (.keyDown SDLK_1) samplePuzzle sampleGrid 1
        { initialSession samplePuzzle with selectedRow := 9, selectedCol := 9 }
      = .error .outOfBounds := by
  refine ⟨by decide, by decide, by decide⟩


theorem isBoardComplete_iff (b : Board) :
    isBoardComplete b = true ↔ ∀ row ∈ b, (0 : Int) ∉ row := by
  induction b with
  | nil => simp [isBoardComplete]
  | cons row rest ih =>
    by_cases h : (0 : Int) ∈ row
    · simp [isBoardComplete, h]
    · simp [isBoardComplete, h, ih]

theorem full_iff_no_zero {b : Board} (hb : b.WF) :
    Full b ↔ ∀ row ∈ b, (0 : Int) ∉ row := by
  obtain ⟨hlen, hrows⟩ := hb
  have hcell : ∀ r c (hr : r < b.length) (hc : c < (b[r]).length),
      cellOf b r c = (b[r])[c] := by
    intro r c hr hc
    simp [cellOf, List.getD_eq_getElem?_getD, List.getElem?_eq_getElem hr,
      List.getElem?_eq_getElem hc]
  constructor
  · intro hfull row hrow h0
    obtain ⟨r, hr, rfl⟩ := List.getElem_of_mem hrow
    obtain ⟨c, hc, e⟩ := List.getElem_of_mem h0
    have h9 : (b[r]).length = 9 := hrows _ (List.getElem_mem _)
    have := hfull r (by omega) c (by omega)
    rw [hcell r c hr hc] at this
    exact this e
  · intro h r hr c hc h0
    have hr2 : r < b.length := by omega
    have h9 : (b[r]).length = 9 := hrows _ (List.getElem_mem _)
    have hc2 : c < (b[r]).length := by omega
    rw [hcell r c hr2 hc2] at h0
    exact h (b[r]) (List.getElem_mem _) (by rw [← h0]; exact List.getElem_mem _)

/-- C14 (check mode): in every session state, whether or not check mode is
already on, RequestCheck (the Return key, or a mouse press on the Check
button) sets `checkMode` to true and records the clock reading as a `Uint32`
without touching the board or the selection. At a later clock reading `now`
with `checkMode` set: if the unsigned 32-bit difference `now - checkTime` is at
least 2000, `checkMode` is cleared and `quit` is set exactly when the player
board has no zero cell (the solution board is not an input of this step); if
the difference is below 2000 the state is unchanged. With `checkMode` off the
step changes nothing. -/
theorem checkMode_expiry (init sol : Board) (t now : Nat) (s : Session) :
    handleInput (.keyDown SDLK_RETURN) init sol t s
        = .ok { s with checkMode := true, checkTime := t % 2 ^ 32 } ∧
      (∀ x y : Int, SCREEN_WIDTH - 100 ≤ x ∧ x ≤ SCREEN_WIDTH - 20 →
        SCREEN_HEIGHT - 50 ≤ y ∧ y ≤ SCREEN_HEIGHT - 20 →
        handleInput (.mouseButtonDown x y) init sol t s
          = .ok { s with checkMode := true, checkTime := t % 2 ^ 32 }) ∧
      (s.checkMode = true → 2000 ≤ sub32 now s.checkTime → ∀ quit, checkExpiry now s quit
        = ({ s with checkMode := false }, quit || isBoardComplete s.board)) ∧
      (s.checkMode = true → sub32 now s.checkTime < 2000 →
        ∀ quit, checkExpiry now s quit = (s, quit)) ∧
      (s.checkMode = false → ∀ quit, checkExpiry now s quit = (s, quit)) ∧
      (isBoardComplete s.board = true ↔ ∀ row ∈ s.board, (0 : Int) ∉ row) ∧
      (s.board.WF → (isBoardComplete s.board = true ↔ Full s.board)) := by
  refine ⟨?_, ?_, ?_, ?_, ?_, isBoardComplete_iff s.board, ?_⟩
  · have hr : (1 : Int) ≤ SDLK_RETURN ∧ SDLK_RETURN ≤ 127 := by decide
    obtain ⟨h1, h2, h3, h4⟩ := key_ne_arrows hr
    have h5 : ¬ (SDLK_RETURN = SDLK_BACKSPACE ∨ SDLK_RETURN = SDLK_DELETE) := by decide
    simp only [handleInput, if_neg h1, if_neg h2, if_neg h3, if_neg h4,
      if_neg (not_digit_key (Or.inl (by decide : SDLK_RETURN < 49))), if_neg h5, if_true]
  · intro x y hx hy
    have hgrid : ¬ (x ≥ PADDING ∧ x ≤ PADDING + ((GRID_SIZE : Nat) : Int) * CELL_SIZE ∧
        y ≥ PADDING ∧ y ≤ PADDING + ((GRID_SIZE : Nat) : Int) * CELL_SIZE) := by
      simp only [SCREEN_WIDTH, PADDING, CELL_SIZE, gridSize_cast] at hx ⊢
      omega
    have hbtn : x ≥ SCREEN_WIDTH - 100 ∧ x ≤ SCREEN_WIDTH - 20 ∧
        y ≥ SCREEN_HEIGHT - 50 ∧ y ≤ SCREEN_HEIGHT - 20 := ⟨hx.1, hx.2, hy.1, hy.2⟩
    simp only [handleInput, if_neg hgrid, if_pos hbtn]
  · intro hmode hd quit
    have hd2 : sub32 now s.checkTime ≥ 2000 := hd
    simp only [checkExpiry, hmode, if_true, if_pos hd2]
    cases isBoardComplete s.board <;> simp
  · intro hmode hd quit
    have hd2 : ¬ (sub32 now s.checkTime ≥ 2000) := by omega
    simp only [checkExpiry, hmode, if_true, if_neg hd2]
  · intro hmode quit
    simp [checkExpiry, hmode]
  · intro hwf
    rw [isBoardComplete_iff, full_iff_no_zero hwf]

set_option maxRecDepth 100000 in
theorem checkMode_expiry_witness :
    (initialSession duplicateBoardFilled).checkMode = false ∧
      handleInput (.keyDown SDLK_RETURN) sampleGrid sampleGrid 4294967000
          (initialSession duplicateBoardFilled) = .ok checkingSession ∧
      ((SCREEN_WIDTH - 100 ≤ 600 ∧ (600 : Int) ≤ SCREEN_WIDTH - 20) ∧
        (SCREEN_HEIGHT - 50 ≤ 440 ∧ (440 : Int) ≤ SCREEN_HEIGHT - 20) ∧
        handleInput (.mouseButtonDown 600 440) sampleGrid sampleGrid 4294967000
          (initialSession duplicateBoardFilled) = .ok checkingSession) ∧
      (checkingSession.checkMode = true ∧ 2000 ≤ sub32 1704 checkingSession.checkTime ∧
        checkExpiry 1704 checkingSession false
          = ({ checkingSession with checkMode := false }, true)) ∧
      (sub32 1703 checkingSession.checkTime < 2000 ∧
        checkExpiry 1703 checkingSession false = (checkingSession, false)) :=
  ⟨rfl,
    (checkMode_expiry sampleGrid sampleGrid 4294967000 1704
      (initialSession duplicateBoardFilled)).1.trans (by decide),
    ⟨by decide, by decide,
      ((checkMode_expiry sampleGrid sampleGrid 4294967000 1704
        (initialSession duplicateBoardFilled)).2.1 600 440 (by decide) (by decide)).trans
        (by decide)⟩,
    ⟨rfl, by decide,
      ((checkMode_expiry sampleGrid sampleGrid 0 1704 checkingSession).2.2.1 rfl (by decide)
        false).trans (by decide)⟩,
    ⟨by decide,
      (checkMode_expiry sampleGrid sampleGrid 0 1703 checkingSession).2.2.2.1 rfl (by decide)
        false⟩⟩

theorem testIncorrect_eq {board sol : Board} (hb : board.WF) (hs : sol.WF) {r c : Nat}
    (hr : r < 9) (hc : c < 9) :
    testIncorrect board sol r c
      = .ok (decide (cellOf board r c ≠ 0 ∧ cellOf board r c ≠ cellOf sol r c)) := by
  simp only [testIncorrect, readCell_of_WF hb hr hc, readCell_of_WF hs hr hc]
  by_cases h : cellOf board r c ≠ 0
  · simp [h]
  · simp [h]

theorem testCorrect_eq {board sol : Board} (hb : board.WF) (hs : sol.WF) {r c : Nat}
    (hr : r < 9) (hc : c < 9) :
    testCorrect board sol r c
      = .ok (decide (cellOf board r c = cellOf sol r c ∧ cellOf board r c ≠ 0)) := by
  simp only [testCorrect, readCell_of_WF hb hr hc, readCell_of_WF hs hr hc]
  by_cases h : cellOf board r c = cellOf sol r c
  · simp [h]
  · simp [h]

theorem highlightCell_eq {board sol : Board} (hb : board.WF) (hs : sol.WF) {r c : Nat}
    (hr : r < 9) (hc : c < 9) :
    highlightCell board sol r c
      = .ok (if cellOf board r c = 0 then none
          else if cellOf board r c = cellOf sol r c then some .correct
          else some .incorrect) := by
  simp only [highlightCell, testIncorrect_eq hb hs hr hc, testCorrect_eq hb hs hr hc]
  by_cases h0 : cellOf board r c = 0
  · simp [h0]
  · by_cases h1 : cellOf board r c = cellOf sol r c
    · have h2 : ¬ cellOf sol r c = 0 := fun h => h0 (h1.trans h)
      simp [h1, h2]
    · simp [h0, h1]

theorem highlightLoop_spec {board sol : Board} (hb : board.WF) (hs : sol.WF)
    (cs : List (Nat × Nat)) (hcs : ∀ p ∈ cs, p.1 < 9 ∧ p.2 < 9) :
    ∃ hl, highlightLoop board sol cs = .ok hl ∧
      ∀ r c colour, (r, c, colour) ∈ hl ↔
        (r, c) ∈ cs ∧ highlightCell board sol r c = .ok (some colour) := by
  induction cs with
  | nil => exact ⟨[], rfl, by simp⟩
  | cons p rest ih =>
    obtain ⟨row, col⟩ := p
    have hp := hcs (row, col) (List.mem_cons_self _ _)
    simp only at hp
    obtain ⟨hl, he, hmem⟩ := ih (fun q hq => hcs q (List.mem_cons_of_mem _ hq))
    cases hcell : highlightCell board sol row col with
    | error f =>
      rw [highlightCell_eq hb hs hp.1 hp.2] at hcell
      cases hcell
    | ok h =>
      cases h with
      | none =>
        refine ⟨hl, by simp only [highlightLoop, hcell, he], ?_⟩
        intro r c colour
        rw [hmem r c colour]
        constructor
        · rintro ⟨h1, h2⟩
          exact ⟨List.mem_cons_of_mem _ h1, h2⟩
        · rintro ⟨h1, h2⟩
          rcases List.mem_cons.mp h1 with h | h
          · injection h with e1 e2
            subst e1; subst e2
            rw [hcell] at h2
            cases h2
          · exact ⟨h, h2⟩
      | some col0 =>
        refine ⟨(row, col, col0) :: hl, by simp only [highlightLoop, hcell, he], ?_⟩
        intro r c colour
        rw [List.mem_cons, hmem r c colour]
        constructor
        · rintro (h | ⟨h1, h2⟩)
          · injection h with e1 e2
            injection e2 with e2 e3
            subst e1; subst e2; subst e3
            exact ⟨List.mem_cons_self _ _, hcell⟩
          · exact ⟨List.mem_cons_of_mem _ h1, h2⟩
        · rintro ⟨h1, h2⟩
          rcases List.mem_cons.mp h1 with h | h
          · injection h with e1 e2
            subst e1; subst e2
            rw [hcell] at h2
            injection h2 with h2
            injection h2 with h2
            subst h2
            exact Or.inl rfl
          · exact Or.inr ⟨h, h2⟩

/-- C15 (check-mode classification): on 9x9 boards, for a cell `(r, c)` in
range, `drawGrid` in check mode highlights the cell as correct exactly when it
is non-zero and equals the solution cell, as incorrect exactly when it is
non-zero and differs from it; an empty cell gets neither highlight, no cell
gets both, and nothing is highlighted when check mode is off. The function
`isCorrect`, which no code calls, compares the two cells only. -/
theorem checkHighlights_classify (board sol : Board) (hb : board.WF) (hs : sol.WF)
    (r c : Nat) (hr : r < 9) (hc : c < 9) :
    ∃ hl, checkHighlights true board sol = .ok hl ∧
      ((r, c, Highlight.correct) ∈ hl ↔
        cellOf board r c ≠ 0 ∧ cellOf board r c = cellOf sol r c) ∧
      ((r, c, Highlight.incorrect) ∈ hl ↔
        cellOf board r c ≠ 0 ∧ cellOf board r c ≠ cellOf sol r c) ∧
      (cellOf board r c = 0 →
        (r, c, Highlight.correct) ∉ hl ∧ (r, c, Highlight.incorrect) ∉ hl) ∧
      ¬ ((r, c, Highlight.correct) ∈ hl ∧ (r, c, Highlight.incorrect) ∈ hl) ∧
      checkHighlights false board sol = .ok [] ∧
      isCorrect board sol r c = .ok (decide (cellOf board r c = cellOf sol r c)) := by
  obtain ⟨hl, he, hmem⟩ := highlightLoop_spec hb hs allCells
    (fun p hp => (mem_allCells p).mp hp)
  have hin : (r, c) ∈ allCells := (mem_allCells (r, c)).mpr ⟨hr, hc⟩
  have hcor : (r, c, Highlight.correct) ∈ hl ↔
      cellOf board r c ≠ 0 ∧ cellOf board r c = cellOf sol r c := by
    rw [hmem, highlightCell_eq hb hs hr hc]
    by_cases h0 : cellOf board r c = 0
    · simp [h0, hin]
    · by_cases h1 : cellOf board r c = cellOf sol r c
      · simp [h0, h1, hin]
      · simp [h0, h1, hin]
  have hinc : (r, c, Highlight.incorrect) ∈ hl ↔
      cellOf board r c ≠ 0 ∧ cellOf board r c ≠ cellOf sol r c := by
    rw [hmem, highlightCell_eq hb hs hr hc]
    by_cases h0 : cellOf board r c = 0
    · simp [h0, hin]
    · by_cases h1 : cellOf board r c = cellOf sol r c
      · simp [h0, h1, hin]
      · simp [h0, h1, hin]
  refine ⟨hl, by simp only [checkHighlights, if_true]; exact he, hcor, hinc, ?_, ?_, rfl,
    by simp only [isCorrect, readCell_of_WF hb hr hc, readCell_of_WF hs hr hc]⟩
  · intro h0
    rw [hcor, hinc]
    exact ⟨fun h => h.1 h0, fun h => h.1 h0⟩
  · rw [hcor, hinc]
    rintro ⟨h1, h2⟩
    exact h2.2 h1.2

set_option maxRecDepth 100000 in
theorem checkHighlights_classify_witness :
    duplicateBoard.WF ∧ sampleGrid.WF ∧ 0 < 9 ∧ 1 < 9 ∧
      ∃ hl, checkHighlights true duplicateBoard sampleGrid = .ok hl ∧
        ((0, 1, Highlight.correct) ∈ hl ↔
          cellOf duplicateBoard 0 1 ≠ 0 ∧ cellOf duplicateBoard 0 1 = cellOf sampleGrid 0 1) ∧
        ((0, 1, Highlight.incorrect) ∈ hl ↔
          cellOf duplicateBoard 0 1 ≠ 0 ∧ cellOf duplicateBoard 0 1 ≠ cellOf sampleGrid 0 1) ∧
        (cellOf duplicateBoard 0 1 = 0 →
          (0, 1, Highlight.correct) ∉ hl ∧ (0, 1, Highlight.incorrect) ∉ hl) ∧
        ¬ ((0, 1, Highlight.correct) ∈ hl ∧ (0, 1, Highlight.incorrect) ∈ hl) ∧
        checkHighlights false duplicateBoard sampleGrid = .ok [] ∧
        isCorrect duplicateBoard sampleGrid 0 1
          = .ok (decide (cellOf duplicateBoard 0 1 = cellOf sampleGrid 0 1)) :=
  ⟨by decide, by decide, by decide, by decide,
    checkHighlights_classify duplicateBoard sampleGrid (by decide) (by decide) 0 1
      (by decide) (by decide)⟩


/-- What `handleInput` does on the key of a digit `d` in `1..9`. -/
theorem handleInput_digit_eq (init sol : Board) (t : Nat) (s : Session) (d : Int)
    (hd : 1 ≤ d ∧ d ≤ 9) :
    handleInput (.keyDown (SDLK_0 + d)) init sol t s =
      (match readCellAt init s.selectedRow s.selectedCol with
      | .error f => .error f
      | .ok given =>
        if given = 0 then
          match isValidMove s.board s.selectedRow.toNat s.selectedCol.toNat d with
          | .error f => .error f
          | .ok false => .ok s
          | .ok true =>
            match writeCellAt s.board s.selectedRow s.selectedCol d with
            | .error f => .error f
            | .ok b2 => .ok { s with board := b2 }
        else .ok s) := by
  have hr : 1 ≤ SDLK_0 + d ∧ SDLK_0 + d ≤ 127 := by simp only [SDLK_0]; omega
  obtain ⟨h1, h2, h3, h4⟩ := key_ne_arrows hr
  have hdig : SDLK_0 + d = SDLK_1 ∨ SDLK_0 + d = SDLK_2 ∨ SDLK_0 + d = SDLK_3 ∨
      SDLK_0 + d = SDLK_4 ∨ SDLK_0 + d = SDLK_5 ∨ SDLK_0 + d = SDLK_6 ∨
      SDLK_0 + d = SDLK_7 ∨ SDLK_0 + d = SDLK_8 ∨ SDLK_0 + d = SDLK_9 := by
    simp only [SDLK_0, SDLK_1, SDLK_2, SDLK_3, SDLK_4, SDLK_5, SDLK_6, SDLK_7, SDLK_8,
      SDLK_9]
    omega
  have hnum : SDLK_0 + d - SDLK_0 = d := by omega
  simp only [handleInput, if_neg h1, if_neg h2, if_neg h3, if_neg h4, if_pos hdig, hnum]

theorem occurs_self {b : Board} {r c : Nat} (hc : c < 9) : Occurs b r c (cellOf b r c) :=
  Or.inl ⟨c, hc, rfl⟩

/-- C17 (self-placement is rejected): on a 9x9 board `B` with `B[r][c] == d`,
`isValidMove(B, r, c, d)` returns false; hence the key of a digit `d` in `1..9`,
pressed with the selection on a cell of the player board that already holds
`d`, leaves the state unchanged. -/
theorem isValidMove_self_placement (init sol : Board) (hinit : init.WF) (t : Nat)
    (s : Session) (hb : s.board.WF) (r c : Nat) (hr : r < 9) (hc : c < 9)
    (hsr : s.selectedRow = r) (hsc : s.selectedCol = c) (d : Int) (hd : 1 ≤ d ∧ d ≤ 9) :
    (∀ B : Board, B.WF → cellOf B r c = d → isValidMove B r c d = .ok false) ∧
      (cellOf s.board r c = d →
        handleInput (.keyDown (SDLK_0 + d)) init sol t s = .ok s) := by
  have hself : ∀ B : Board, B.WF → cellOf B r c = d → isValidMove B r c d = .ok false := by
    intro B hB hcell
    rw [isValidMove_eq hB hr hc]
    have : Occurs B r c d := by rw [← hcell]; exact occurs_self hc
    simp [this]
  refine ⟨hself, ?_⟩
  intro hcell
  rw [handleInput_digit_eq init sol t s d hd, hsr, hsc, readCellAt_natCast,
    readCell_of_WF hinit hr hc]
  simp only []
  by_cases hg : cellOf init r c = 0
  · rw [if_pos hg, Int.toNat_natCast, Int.toNat_natCast, hself s.board hb hcell]
  · rw [if_neg hg]

set_option maxRecDepth 100000 in
theorem isValidMove_self_placement_witness :
    samplePuzzle.WF ∧ (initialSession (putCell samplePuzzle 0 0 1)).board.WF ∧ 0 < 9 ∧ 0 < 9 ∧
      (initialSession (putCell samplePuzzle 0 0 1)).selectedRow = (0 : Nat) ∧
      (initialSession (putCell samplePuzzle 0 0 1)).selectedCol = (0 : Nat) ∧
      ((1 : Int) ≤ 1 ∧ (1 : Int) ≤ 9) ∧
      cellOf (initialSession (putCell samplePuzzle 0 0 1)).board 0 0 = 1 ∧
      handleInput (.keyDown (SDLK_0 + 1)) samplePuzzle sampleGrid 0
          (initialSession (putCell samplePuzzle 0 0 1))
        = .ok (initialSession (putCell samplePuzzle 0 0 1)) :=
  ⟨by decide, by decide, by decide, by decide, rfl, rfl, by decide, by decide,
    (isValidMove_self_placement samplePuzzle sampleGrid (by decide) 0
      (initialSession (putCell samplePuzzle 0 0 1)) (by decide) 0 0 (by decide) (by decide)
      rfl rfl 1 (by decide)).2 (by decide)⟩

theorem mem_boxCells (p : Nat × Nat) : p ∈ boxCells ↔ p.1 < 3 ∧ p.2 < 3 := by
  obtain ⟨a, b⟩ := p
  simp only [boxCells, List.mem_cons, Prod.mk.injEq, List.mem_singleton, List.not_mem_nil,
    or_false]
  omega

theorem fillBox_spec (numbers : List Int) (hlen : numbers.length = 9) (i : Nat) (hi : i ≤ 6)
    (cs : List (Nat × Nat)) (hcs : ∀ p ∈ cs, p.1 < 3 ∧ p.2 < 3) :
    ∀ b : Board, b.WF → ∃ b2, fillBox numbers i cs b = .ok b2 ∧ b2.WF ∧
      ∀ r c, r < 9 → c < 9 → cellOf b2 r c =
        if (r - i, c - i) ∈ cs ∧ i ≤ r ∧ i ≤ c then numbers.getD ((r - i) * 3 + (c - i)) 0
        else cellOf b r c := by
  induction cs with
  | nil =>
    intro b hb
    exact ⟨b, rfl, hb, fun _ _ _ _ => by simp⟩
  | cons p rest ih =>
    intro b hb
    obtain ⟨row, col⟩ := p
    have hp := hcs (row, col) (List.mem_cons_self _ _)
    simp only at hp
    have hidx : row * 3 + col < numbers.length := by omega
    have hR : i + row < 9 := by omega
    have hC : i + col < 9 := by omega
    simp only [fillBox, List.getElem?_eq_getElem hidx]
    rw [writeCell_of_WF hb hR hC]
    obtain ⟨b2, e, hwf, hcell⟩ :=
      ih (fun q hq => hcs q (List.mem_cons_of_mem _ hq)) _ (putCell_WF hb (i + row) (i + col) _)
    refine ⟨b2, e, hwf, ?_⟩
    intro r c hr hc
    rw [hcell r c hr hc, cellOf_putCell hb hR hC]
    by_cases h1 : (r - i, c - i) ∈ rest ∧ i ≤ r ∧ i ≤ c
    · have h2 : (r - i, c - i) ∈ (row, col) :: rest ∧ i ≤ r ∧ i ≤ c :=
        ⟨List.mem_cons_of_mem _ h1.1, h1.2⟩
      rw [if_pos h1, if_pos h2]
    · rw [if_neg h1]
      by_cases h3 : r = i + row ∧ c = i + col
      · obtain ⟨e1, e2⟩ := h3
        have e3 : r - i = row := by omega
        have e4 : c - i = col := by omega
        have h2 : (r - i, c - i) ∈ (row, col) :: rest ∧ i ≤ r ∧ i ≤ c := by
          rw [e3, e4]
          exact ⟨List.mem_cons_self _ _, by omega, by omega⟩
        rw [if_pos ⟨e1, e2⟩, if_pos h2, e3, e4, List.getD_eq_getElem _ _ hidx]
      · have h2 : ¬ ((r - i, c - i) ∈ (row, col) :: rest ∧ i ≤ r ∧ i ≤ c) := by
          rintro ⟨hm, h4, h5⟩
          rcases List.mem_cons.mp hm with h | h
          · injection h with e1 e2
            exact h3 ⟨by omega, by omega⟩
          · exact h1 ⟨h, h4, h5⟩
        rw [if_neg h3, if_neg h2]

/-- The board `fillDiagonal` leaves on the empty board: the cell `(r, c)` of a
diagonal box holds entry `(r % 3) * 3 + c % 3` of the shuffle drawn for that
box, every other cell is zero. -/
theorem fillDiagonal_spec (shuffle : Nat → List Int) (hs : ∀ k, (shuffle k).Perm digits) :
    ∃ b, fillDiagonal shuffle emptyBoard = .ok b ∧ b.WF ∧
      ∀ r c, r < 9 → c < 9 → cellOf b r c =
        if r / 3 = c / 3 then (shuffle (r / 3)).getD ((r % 3) * 3 + c % 3) 0 else 0 := by
  have hlen : ∀ k, (shuffle k).length = 9 := fun k => (hs k).length_eq
  obtain ⟨b1, e1, w1, c1⟩ := fillBox_spec (shuffle 0) (hlen 0) 0 (by omega) boxCells
    boxCells_lt emptyBoard (by decide)
  obtain ⟨b2, e2, w2, c2⟩ := fillBox_spec (shuffle 1) (hlen 1) 3 (by omega) boxCells
    boxCells_lt b1 w1
  obtain ⟨b3, e3, w3, c3⟩ := fillBox_spec (shuffle 2) (hlen 2) 6 (by omega) boxCells
    boxCells_lt b2 w2
  refine ⟨b3, by simp only [fillDiagonal, e1, e2, e3], w3, ?_⟩
  intro r c hr hc
  rw [c3 r c hr hc, c2 r c hr hc, c1 r c hr hc, emptyBoard_cellOf]
  simp only [mem_boxCells]
  by_cases h6 : (r - 6 < 3 ∧ c - 6 < 3) ∧ 6 ≤ r ∧ 6 ≤ c
  · have e : r / 3 = c / 3 := by omega
    have e1 : r / 3 = 2 := by omega
    have e2 : r - 6 = r % 3 := by omega
    have e3 : c - 6 = c % 3 := by omega
    rw [if_pos h6, if_pos e, e1, e2, e3]
  · rw [if_neg h6]
    by_cases h3 : (r - 3 < 3 ∧ c - 3 < 3) ∧ 3 ≤ r ∧ 3 ≤ c
    · have e : r / 3 = c / 3 := by omega
      have e1 : r / 3 = 1 := by omega
      have e2 : r - 3 = r % 3 := by omega
      have e3 : c - 3 = c % 3 := by omega
      rw [if_pos h3, if_pos e, e1, e2, e3]
    · rw [if_neg h3]
      by_cases h0 : (r - 0 < 3 ∧ c - 0 < 3) ∧ 0 ≤ r ∧ 0 ≤ c
      · have e : r / 3 = c / 3 := by omega
        have e1 : r / 3 = 0 := by omega
        have e2 : r - 0 = r % 3 := by omega
        have e3 : c - 0 = c % 3 := by omega
        rw [if_pos h0, if_pos e, e1, e2, e3]
      · have e : ¬ (r / 3 = c / 3) := by omega
        rw [if_neg h0, if_neg e]


theorem boxOf_diag {b : Board} {numbers : List Int} (hlen : numbers.length = 9) (k : Nat)
    (hk : k < 3)
    (hcell : ∀ t, t < 9 → cellOf b (3 * k + t / 3) (3 * k + t % 3) = numbers.getD t 0) :
    boxOf b (4 * k) = numbers := by
  have e1 : 4 * k / 3 = k := by omega
  have e2 : 4 * k % 3 = k := by omega
  apply List.ext_getElem
  · simp [boxOf, hlen]
  · intro t h1 h2
    have ht : t < 9 := by simpa [boxOf] using h1
    simp only [boxOf, List.getElem_map, List.getElem_range, e1, e2]
    rw [hcell t ht, List.getD_eq_getElem _ _ h2]

/-- C16 (diagonal seeding): on the all-zero 9x9 board, with any three
permutations of `1..9` drawn, `fillDiagonal` returns a 9x9 board in which each
of the boxes with origins `(0,0)`, `(3,3)`, `(6,6)` holds every digit `1..9`
exactly once, every cell outside these boxes is zero, and no non-zero value
occurs twice in a row, a column or a 3x3 box. -/
theorem fillDiagonal_seeding (shuffle : Nat → List Int) (hs : ∀ k, (shuffle k).Perm digits) :
    ∃ b, fillDiagonal shuffle emptyBoard = .ok b ∧ b.WF ∧
      (boxOf b 0).Perm digits ∧ (boxOf b 4).Perm digits ∧ (boxOf b 8).Perm digits ∧
      (∀ r, r < 9 → ∀ c, c < 9 → r / 3 ≠ c / 3 → cellOf b r c = 0) ∧
      ConflictFree b := by
  obtain ⟨b, e, hwf, hcell⟩ := fillDiagonal_spec shuffle hs
  have hlen : ∀ k, (shuffle k).length = 9 := fun k => (hs k).length_eq
  have hbox : ∀ k, k < 3 → boxOf b (4 * k) = shuffle k := by
    intro k hk
    apply boxOf_diag (hlen k) k hk
    intro t ht
    rw [hcell _ _ (by omega) (by omega)]
    have e1 : (3 * k + t / 3) / 3 = (3 * k + t % 3) / 3 := by omega
    have e2 : (3 * k + t / 3) / 3 = k := by omega
    have e3 : (3 * k + t / 3) % 3 * 3 + (3 * k + t % 3) % 3 = t := by omega
    rw [if_pos e1, e2, e3]
  refine ⟨b, e, hwf, ?_, ?_, ?_, ?_, ?_⟩
  · have := hbox 0 (by omega)
    rw [show 4 * 0 = 0 from rfl] at this
    rw [this]; exact hs 0
  · have := hbox 1 (by omega)
    rw [show 4 * 1 = 4 from rfl] at this
    rw [this]; exact hs 1
  · have := hbox 2 (by omega)
    rw [show 4 * 2 = 8 from rfl] at this
    rw [this]; exact hs 2
  · intro r hr c hc hne
    rw [hcell r c hr hc, if_neg hne]
  · intro r1 h1 c1 hc1 r2 h2 c2 hc2 hu hne heq
    rw [hcell r1 c1 h1 hc1] at hne heq
    rw [hcell r2 c2 h2 hc2] at heq
    by_cases d1 : r1 / 3 = c1 / 3
    · rw [if_pos d1] at hne heq
      by_cases d2 : r2 / 3 = c2 / 3
      · rw [if_pos d2] at heq
        have hk : r1 / 3 = r2 / 3 := by
          rcases hu with h | h | ⟨h, _⟩
          · rw [h]
          · rw [d1, d2, h]
          · exact h
        rw [← hk] at heq
        have hnd : (shuffle (r1 / 3)).Nodup := (hs (r1 / 3)).nodup_iff.mpr digits_nodup
        have i1 : r1 % 3 * 3 + c1 % 3 < (shuffle (r1 / 3)).length := by rw [hlen]; omega
        have i2 : r2 % 3 * 3 + c2 % 3 < (shuffle (r1 / 3)).length := by rw [hlen]; omega
        rw [List.getD_eq_getElem _ _ i1, List.getD_eq_getElem _ _ i2] at heq
        have := (List.Nodup.getElem_inj_iff hnd).mp heq
        omega
      · rw [if_neg d2] at heq
        exact absurd heq hne
    · rw [if_neg d1] at hne
      exact absurd rfl hne

theorem fillDiagonal_seeding_witness :
    (∀ k, (identityShuffle k).Perm digits) ∧
      ∃ b, fillDiagonal identityShuffle emptyBoard = .ok b ∧ b.WF ∧
        (boxOf b 0).Perm digits ∧ (boxOf b 4).Perm digits ∧ (boxOf b 8).Perm digits ∧
        (∀ r, r < 9 → ∀ c, c < 9 → r / 3 ≠ c / 3 → cellOf b r c = 0) ∧
        ConflictFree b :=
  ⟨identityShuffle_perm, fillDiagonal_seeding identityShuffle identityShuffle_perm⟩


/-- One unfolding of `solveSudokuFuel` away from the base case: the position
`(row2, col2)` read is a cell of the board and has the scan position of the
call. -/
theorem solveSudokuFuel_step (shuffle : Nat → List Int) (b : Board) (row col k : Nat)
    (hrow : row ≤ 8) (hcol : col ≤ 9) (hbase : ¬ (row = 8 ∧ col = 9)) :
    ∃ row2 col2, row2 ≤ 8 ∧ col2 ≤ 8 ∧ 9 * row2 + col2 = 9 * row + col ∧
      ∀ fuel, solveSudokuFuel shuffle (fuel + 1) b row col k =
        (match readCell b row2 col2 with
        | .error e => .error e
        | .ok v =>
          if v ≠ 0 then solveSudokuFuel shuffle fuel b row2 (col2 + 1) k
          else
            tryCandidates (fun b k2 => solveSudokuFuel shuffle fuel b row2 (col2 + 1) k2)
              row2 col2 (shuffle k) b (k + 1)) := by
  by_cases hc9 : col = 9
  · refine ⟨row + 1, 0, by omega, by omega, by omega, ?_⟩
    intro fuel
    have hb2 : ¬ row = 8 := fun h => hbase ⟨h, hc9⟩
    subst hc9
    simp [solveSudokuFuel, GRID_SIZE, hb2]
  · refine ⟨row, col, by omega, by omega, rfl, ?_⟩
    intro fuel
    simp [solveSudokuFuel, GRID_SIZE, hc9]

theorem tryCandidates_congr (next1 next2 : Board → Nat → SolveResult) {row col : Nat}
    (hr : row < 9) (hc : col < 9)
    (hagree : ∀ b1 k1, b1.WF → next1 b1 k1 = next2 b1 k1)
    (hwf : ∀ b1 k1, b1.WF → ∀ res b2 k2, next1 b1 k1 = .ok (res, b2, k2) → b2.WF)
    (cands : List Int) :
    ∀ (b : Board) (k : Nat), b.WF →
      tryCandidates next1 row col cands b k = tryCandidates next2 row col cands b k := by
  induction cands with
  | nil => intro b k _; rfl
  | cons num rest ih =>
    intro b k hb
    rw [tryCandidates, tryCandidates, isValidMove_eq hb hr hc]
    cases decide (¬ Occurs b row col num) with
    | false => exact ih b k hb
    | true =>
      simp only []
      rw [writeCell_of_WF hb hr hc]
      have hpw := putCell_WF hb row col num
      simp only []
      rw [← hagree _ k hpw]
      cases hn : next1 (putCell b row col num) k with
      | error f => rfl
      | ok result =>
        obtain ⟨res, b2, k2⟩ := result
        have hb2 : b2.WF := hwf _ k hpw res b2 k2 hn
        cases res with
        | true => rfl
        | false =>
          simp only []
          rw [writeCell_of_WF hb2 hr hc]
          exact ih _ k2 (putCell_WF hb2 row col 0)

/-- Any two recursion budgets that cover the remaining scan positions give the
same outcome. -/
theorem solveSudokuFuel_fuel_irrelevant (shuffle : Nat → List Int) :
    ∀ fuel1 fuel2 (b : Board) (row col k : Nat), b.WF → row ≤ 8 → col ≤ 9 →
      81 < fuel1 + 9 * row + col → 81 < fuel2 + 9 * row + col →
      solveSudokuFuel shuffle fuel1 b row col k = solveSudokuFuel shuffle fuel2 b row col k := by
  intro fuel1
  induction fuel1 with
  | zero => intro fuel2 b row col k _ h1 h2 h3 _; omega
  | succ f1 ih =>
    intro fuel2 b row col k hb h1 h2 h3 h4
    cases fuel2 with
    | zero => omega
    | succ f2 =>
      by_cases hbase : row = 8 ∧ col = 9
      · simp [solveSudokuFuel, GRID_SIZE, hbase]
      · obtain ⟨row2, col2, hrow2, hcol2, hpos, hdef⟩ :=
          solveSudokuFuel_step shuffle b row col k h1 h2 hbase
        rw [hdef f1, hdef f2, readCell_of_WF hb (by omega) (by omega)]
        simp only []
        by_cases hv : cellOf b row2 col2 ≠ 0
        · rw [if_pos hv, if_pos hv]
          exact ih f2 b row2 (col2 + 1) k hb hrow2 (by omega) (by omega) (by omega)
        · rw [if_neg hv, if_neg hv]
          apply tryCandidates_congr _ _ (by omega : row2 < 9) (by omega : col2 < 9)
          · intro b1 k1 hb1
            exact ih f2 b1 row2 (col2 + 1) k1 hb1 hrow2 (by omega) (by omega) (by omega)
          · intro b1 k1 hb1 res b2 k2 he
            obtain ⟨res3, b3, k3, he3, post⟩ :=
              solveSudokuFuel_post shuffle f1 b1 row2 (col2 + 1) k1 hb1 hrow2 (by omega)
                (by omega)
            rw [he3] at he
            injection he with he
            injection he with _ he
            injection he with he _
            subst he
            exact post.wf
          · exact hb

/-- C18 (termination): on a 9x9 board, for every stream of candidate lists and
every start position on the board, the recursion of `solveSudoku` returns a
result with every budget of at least `82 - (9 * row + col)` nested calls, and
the result is the same for all of them: each nested call is at a scan position
`9 * row + col` one higher than its caller's, and the positions end at `81`,
the base case `(8, 9)`. In particular `solveSudoku(board, 0, 0)` returns. -/
theorem solveSudoku_terminates (shuffle : Nat → List Int) (b : Board) (hb : b.WF)
    (row col k : Nat) (hrow : row ≤ 8) (hcol : col ≤ 9) :
    ∃ res b2 k2, solveSudoku shuffle b row col k = .ok (res, b2, k2) ∧
      ∀ fuel, 81 < fuel + 9 * row + col →
        solveSudokuFuel shuffle fuel b row col k = .ok (res, b2, k2) := by
  obtain ⟨res, b2, k2, he, _⟩ := solveSudoku_post shuffle b hb row col k hrow hcol
  refine ⟨res, b2, k2, he, ?_⟩
  intro fuel hfuel
  rw [← he]
  exact solveSudokuFuel_fuel_irrelevant shuffle fuel _ b row col k hb hrow hcol hfuel
    (by simp [GRID_SIZE]; omega)

set_option maxRecDepth 100000 in
theorem solveSudoku_terminates_witness :
    samplePuzzle.WF ∧ 0 ≤ 8 ∧ 0 ≤ 9 ∧
      ∃ res b2 k2, solveSudoku identityShuffle samplePuzzle 0 0 0 = .ok (res, b2, k2) ∧
        ∀ fuel, 81 < fuel + 9 * 0 + 0 →
          solveSudokuFuel identityShuffle fuel samplePuzzle 0 0 0 = .ok (res, b2, k2) :=
  ⟨by decide, by decide, by decide,
    solveSudoku_terminates identityShuffle samplePuzzle (by decide) 0 0 0 (by decide)
      (by decide)⟩

theorem readCell_fault_iff {b : Board} (hb : b.WF) (r c : Nat) :
    readCell b r c = .error .outOfBounds ↔ ¬ (r < 9 ∧ c < 9) := by
  constructor
  · intro h hin
    rw [readCell_of_WF hb hin.1 hin.2] at h
    cases h
  · intro h
    exact readCell_oob hb (by omega)

theorem writeCell_fault_iff {b : Board} (hb : b.WF) (r c : Nat) (v : Int) :
    writeCell b r c v = .error .outOfBounds ↔ ¬ (r < 9 ∧ c < 9) := by
  constructor
  · intro h hin
    rw [writeCell_of_WF hb hin.1 hin.2] at h
    cases h
  · intro h
    obtain ⟨hlen, hrows⟩ := hb
    by_cases hr : r < b.length
    · have h2 : (b[r]).length = 9 := hrows _ (List.getElem_mem _)
      have hc : ¬ c < (b[r]).length := by omega
      simp [writeCell, List.getElem?_eq_getElem hr, hc]
    · have h3 : b[r]? = none := List.getElem?_eq_none (by omega)
      simp [writeCell, h3]

/-- C20 (index safety of the solver): on a 9x9 board a read or a write faults
exactly when its row or column index is outside `0..8`, and for every stream of
candidate lists `solveSudoku(board, 0, 0)` returns without any such fault, the
accesses inside `isValidMove` included; the position `(8, 9)` returns true
before any access, on any board whatever. -/
theorem solveSudoku_index_safe (shuffle : Nat → List Int) (b : Board) (hb : b.WF) (k : Nat) :
    (∀ r c, readCell b r c = .error .outOfBounds ↔ ¬ (r < 9 ∧ c < 9)) ∧
      (∀ r c v, writeCell b r c v = .error .outOfBounds ↔ ¬ (r < 9 ∧ c < 9)) ∧
      (∃ res b2 k2, solveSudoku shuffle b 0 0 k = .ok (res, b2, k2)) ∧
      solveSudoku shuffle b 0 0 k ≠ .error .outOfBounds ∧
      (∀ (b0 : Board) (fuel k0 : Nat),
        solveSudokuFuel shuffle (fuel + 1) b0 8 9 k0 = .ok (true, b0, k0)) := by
  obtain ⟨res, b2, k2, he, _⟩ := solveSudoku_post shuffle b hb 0 0 k (by omega) (by omega)
  refine ⟨readCell_fault_iff hb, writeCell_fault_iff hb, ⟨res, b2, k2, he⟩, ?_, ?_⟩
  · rw [he]
    intro h
    cases h
  · intro b0 fuel k0
    simp [solveSudokuFuel, GRID_SIZE]

set_option maxRecDepth 100000 in
theorem solveSudoku_index_safe_witness :
    deadEndBoard.WF ∧
      solveSudoku identityShuffle deadEndBoard 0 0 0 ≠ .error .outOfBounds :=
  ⟨by decide,
    (solveSudoku_index_safe identityShuffle deadEndBoard (by decide) 0).2.2.2.1⟩


theorem digitConflictFree_putCell {b : Board} (hb : b.WF) (hcf : DigitConflictFree b)
    {r c : Nat} (hr : r < 9) (hc : c < 9) {d : Int} (hocc : ¬ Occurs b r c d) :
    DigitConflictFree (putCell b r c d) := by
  intro r1 h1 c1 hc1 r2 h2 c2 hc2 hu hne heq
  rw [cellOf_putCell hb hr hc] at hne heq
  rw [cellOf_putCell hb hr hc] at heq
  by_cases e1 : r1 = r ∧ c1 = c
  · by_cases e2 : r2 = r ∧ c2 = c
    · exact ⟨e1.1.trans e2.1.symm, e1.2.trans e2.2.symm⟩
    · exfalso
      rw [if_pos e1, if_neg e2] at heq
      obtain ⟨e1r, e1c⟩ := e1
      subst e1r; subst e1c
      exact hocc ((occurs_iff hr hc d).mpr ⟨r2, h2, c2, hc2, hu, heq.symm⟩)
  · by_cases e2 : r2 = r ∧ c2 = c
    · exfalso
      rw [if_neg e1, if_pos e2] at heq
      obtain ⟨e2r, e2c⟩ := e2
      subst e2r; subst e2c
      exact hocc ((occurs_iff hr hc d).mpr ⟨r1, h1, c1, hc1, hu.symm, heq⟩)
    · rw [if_neg e1] at hne heq
      rw [if_neg e2] at heq
      exact hcf r1 h1 c1 hc1 r2 h2 c2 hc2 hu hne heq

theorem digitConflictFree_clear {b : Board} (hb : b.WF) (hcf : DigitConflictFree b)
    {r c : Nat} (hr : r < 9) (hc : c < 9) : DigitConflictFree (putCell b r c 0) := by
  intro r1 h1 c1 hc1 r2 h2 c2 hc2 hu hne heq
  rw [cellOf_putCell hb hr hc] at hne heq
  rw [cellOf_putCell hb hr hc] at heq
  by_cases e1 : r1 = r ∧ c1 = c
  · rw [if_pos e1] at hne
    omega
  · rw [if_neg e1] at hne heq
    by_cases e2 : r2 = r ∧ c2 = c
    · rw [if_pos e2] at heq
      omega
    · rw [if_neg e2] at heq
      exact hcf r1 h1 c1 hc1 r2 h2 c2 hc2 hu hne heq

theorem inRange_clear {b : Board} (hb : b.WF) (hin : InRange b) {r c : Nat}
    (hr : r < 9) (hc : c < 9) : InRange (putCell b r c 0) := by
  intro r1 h1 c1 hc1
  rw [cellOf_putCell hb hr hc]
  by_cases e : r1 = r ∧ c1 = c
  · rw [if_pos e]; omega
  · rw [if_neg e]; exact hin r1 h1 c1 hc1

theorem conflictFree_of_digit {b : Board} (hcf : DigitConflictFree b) (hin : InRange b) :
    ConflictFree b := by
  intro r1 h1 c1 hc1 r2 h2 c2 hc2 hu hne heq
  have := hin r1 h1 c1 hc1
  exact hcf r1 h1 c1 hc1 r2 h2 c2 hc2 hu (by omega) heq

theorem digit_key_range {sym : Int}
    (h : sym = SDLK_1 ∨ sym = SDLK_2 ∨ sym = SDLK_3 ∨ sym = SDLK_4 ∨ sym = SDLK_5 ∨
      sym = SDLK_6 ∨ sym = SDLK_7 ∨ sym = SDLK_8 ∨ sym = SDLK_9) :
    1 ≤ sym - SDLK_0 ∧ sym - SDLK_0 ≤ 9 := by
  simp only [SDLK_0, SDLK_1, SDLK_2, SDLK_3, SDLK_4, SDLK_5, SDLK_6, SDLK_7, SDLK_8,
    SDLK_9] at h ⊢
  omega

/-- What one call of `handleInput` can do to the board, with the value written:
nothing, or a write at the selection, a cell that is blank in the initial
puzzle, of `0` or of a digit of `1..9` that `isValidMove` accepted. -/
theorem handleInput_board_valid {init sol : Board} (hinit : init.WF) (e : Event) (t : Nat)
    {s s2 : Session} (hb : s.board.WF) (h : handleInput e init sol t s = .ok s2) :
    s2.board = s.board ∨
      ∃ r c : Nat, ∃ v : Int, r < 9 ∧ c < 9 ∧ cellOf init r c = 0 ∧
        s2.board = putCell s.board r c v ∧
        (v = 0 ∨ (1 ≤ v ∧ v ≤ 9 ∧ ¬ Occurs s.board r c v)) := by
  cases e with
  | other =>
    simp only [handleInput] at h
    injection h with h; subst h; exact Or.inl rfl
  | mouseButtonDown x y =>
    simp only [handleInput] at h
    split_ifs at h <;> (injection h with h; subst h; exact Or.inl rfl)
  | keyDown sym =>
    simp only [handleInput] at h
    split_ifs at h with h1 h2 h3 h4 h5 h6 h7
    · injection h with h; subst h; exact Or.inl rfl
    · injection h with h; subst h; exact Or.inl rfl
    · injection h with h; subst h; exact Or.inl rfl
    · injection h with h; subst h; exact Or.inl rfl
    · cases hrd : readCellAt init s.selectedRow s.selectedCol with
      | error f => rw [hrd] at h; cases h
      | ok given =>
        rw [hrd] at h
        obtain ⟨rn, cn, er, ec, hr, hc, hv⟩ := readCellAt_ok hinit hrd
        simp only [] at h
        split_ifs at h with hg
        · rw [er, ec, Int.toNat_natCast, Int.toNat_natCast, isValidMove_eq hb hr hc,
            writeCellAt_natCast, writeCell_of_WF hb hr hc] at h
          cases hd : decide (¬ Occurs s.board rn cn (sym - SDLK_0)) with
          | false =>
            rw [hd] at h
            injection h with h; subst h; exact Or.inl rfl
          | true =>
            rw [hd] at h
            injection h with h; subst h
            have hocc : ¬ Occurs s.board rn cn (sym - SDLK_0) := of_decide_eq_true hd
            exact Or.inr ⟨rn, cn, _, hr, hc, by rw [← hv]; exact hg, rfl,
              Or.inr ⟨(digit_key_range h5).1, (digit_key_range h5).2, hocc⟩⟩
        · injection h with h; subst h; exact Or.inl rfl
    · cases hrd : readCellAt init s.selectedRow s.selectedCol with
      | error f => rw [hrd] at h; cases h
      | ok given =>
        rw [hrd] at h
        obtain ⟨rn, cn, er, ec, hr, hc, hv⟩ := readCellAt_ok hinit hrd
        simp only [] at h
        split_ifs at h with hg
        · rw [er, ec, writeCellAt_natCast, writeCell_of_WF hb hr hc] at h
          injection h with h; subst h
          exact Or.inr ⟨rn, cn, _, hr, hc, by rw [← hv]; exact hg, rfl, Or.inl rfl⟩
        · injection h with h; subst h; exact Or.inl rfl
    · injection h with h; subst h; exact Or.inl rfl
    · injection h with h; subst h; exact Or.inl rfl

theorem handleInput_invariant {init sol : Board} (hinit : init.WF) (e : Event) (t : Nat)
    {s s2 : Session} (hb : s.board.WF) (h : handleInput e init sol t s = .ok s2) :
    s2.board.WF ∧ (DigitConflictFree s.board → DigitConflictFree s2.board) ∧
      (InRange s.board → InRange s2.board) := by
  rcases handleInput_board_valid hinit e t hb h with h1 | ⟨r, c, v, hr, hc, _, h1, hv⟩
  · rw [h1]; exact ⟨hb, id, id⟩
  · rw [h1]
    refine ⟨putCell_WF hb _ _ _, ?_, ?_⟩
    · intro hcf
      rcases hv with hv | ⟨_, _, hocc⟩
      · rw [hv]; exact digitConflictFree_clear hb hcf hr hc
      · exact digitConflictFree_putCell hb hcf hr hc hocc
    · intro hin
      rcases hv with hv | ⟨h1, h2, _⟩
      · rw [hv]; exact inRange_clear hb hin hr hc
      · exact inRange_putCell hb hin hr hc ⟨h1, h2⟩

theorem runEvents_invariant {init sol : Board} (hinit : init.WF)
    (events : List (Event × Nat)) :
    ∀ s : Session, s.board.WF → DigitConflictFree s.board → InRange s.board →
      ∀ s2, runEvents init sol events s = .ok s2 →
        s2.board.WF ∧ DigitConflictFree s2.board ∧ InRange s2.board := by
  induction events with
  | nil =>
    intro s hb hcf hin s2 h
    simp only [runEvents] at h
    injection h with h; subst h; exact ⟨hb, hcf, hin⟩
  | cons et rest ih =>
    intro s hb hcf hin s2 h
    obtain ⟨e, t⟩ := et
    simp only [runEvents] at h
    cases hstep : handleInput e init sol t s with
    | error f => rw [hstep] at h; cases h
    | ok s1 =>
      rw [hstep] at h
      obtain ⟨hb1, hcf1, hin1⟩ := handleInput_invariant hinit e t hb hstep
      exact ih s1 hb1 (hcf1 hcf) (hin1 hin) s2 h

/-- C19 (conflict-freedom is preserved by play): with a 9x9 initial puzzle, a
key press handled on a 9x9 player board with the selection in range returns,
and if no digit of `1..9` occurred twice in a row, column or box of the player
board before, none does after. Consequently, from an initial puzzle with
entries in `0..9` and no digit twice in a row, column or box, every player
board without zero cell (`isBoardComplete`) reached by a run of `handleInput`
has every row, column and box a permutation of `1..9` and agrees with the
initial puzzle on all its non-zero cells. -/
theorem play_preserves_conflictFree (init sol : Board) (hinit : init.WF) :
    (∀ (s : Session) (sym : Int) (t : Nat), s.board.WF → SelectionInRange s →
        DigitConflictFree s.board →
        ∃ s2, handleInput (.keyDown sym) init sol t s = .ok s2 ∧
          DigitConflictFree s2.board) ∧
      (DigitConflictFree init → InRange init →
        ∀ (events : List (Event × Nat)) (s2 : Session),
          runEvents init sol events (initialSession init) = .ok s2 →
          isBoardComplete s2.board = true → Solved s2.board ∧ Agrees init s2.board) := by
  constructor
  · intro s sym t hb hsel hcf
    obtain ⟨s2, he, _, _⟩ := @handleInput_key_total init sol hinit sym t s hb hsel
    exact ⟨s2, he, (handleInput_invariant hinit _ t hb he).2.1 hcf⟩
  · intro hcf hin events s2 hrun hcomplete
    obtain ⟨hwf, hcf2, hin2⟩ :=
      runEvents_invariant hinit events (initialSession init) hinit hcf hin s2 hrun
    have hfull : Full s2.board :=
      (full_iff_no_zero hwf).mpr ((isBoardComplete_iff s2.board).mp hcomplete)
    exact ⟨solved_of_conflictFree (conflictFree_of_digit hcf2 hin2) hin2 hfull,
      (runEvents_agrees hinit events (initialSession init) hinit (agrees_refl init) s2
        hrun).2⟩

set_option maxRecDepth 100000 in
theorem play_preserves_conflictFree_witness :
    samplePuzzle.WF ∧
      (∃ s2, handleInput (.keyDown SDLK_1) samplePuzzle sampleGrid 0
          (initialSession samplePuzzle) = .ok s2 ∧ DigitConflictFree s2.board) ∧
      (DigitConflictFree samplePuzzle ∧ InRange samplePuzzle ∧
        runEvents samplePuzzle sampleGrid fillFirstRow (initialSession samplePuzzle)
          = .ok { initialSession sampleGrid with selectedCol := 8 } ∧
        isBoardComplete sampleGrid = true ∧ Solved sampleGrid ∧
        Agrees samplePuzzle sampleGrid) :=
  ⟨by decide,
    (play_preserves_conflictFree samplePuzzle sampleGrid (by decide)).1
      (initialSession samplePuzzle) SDLK_1 0 (by decide) (by decide) (by decide),
    by decide, by decide, by decide, by decide,
    (play_preserves_conflictFree samplePuzzle sampleGrid (by decide)).2 (by decide)
      (by decide) fillFirstRow { initialSession sampleGrid with selectedCol := 8 }
      (by decide) (by decide)⟩

end Sudoku
